import Mathlib

/-!
# Verification of the npm-ls-overrides core

Shallow embedding of the path-collection and tree-unification core of the
npm-ls-overrides repository: the tree module (TreeNode,
buildTreeFromPathsWithRawSpecChain, addPathToTreeWithRawSpecChain,
formatTreeNode, formatAsUnifiedTreeFromPathsWithRawSpecs), the npm alias
resolution and explain-output chain extraction
(analyzeNpmOverrides / buildAllDependencyPathsWithRawSpecs /
buildDependentPathsWithRawSpecChain), and the unused-override detector
(findUnusedOverrides).

JavaScript `Map<string, TreeNode>` is modelled as a list of nodes keyed by
their stored `name` (insertion order is the list order; `set` on a fresh key
appends, mutation of an existing entry keeps its position, exactly as a JS
Map iterates).  Optional string fields (`rawSpec?: string`) are `Option
String`, and JavaScript truthiness on them (where both `undefined` and the
empty string are falsy) is `jsTruthy`.  Fallible code returns `Except`.
-/

/-- A dependency-path segment, one entry of the arrays handed to
`buildTreeFromPathsWithRawSpecChain`: `{ name: string; rawSpec?: string }`. -/
structure Segment where
  name : String
  rawSpec : Option String := none
deriving DecidableEq

/-- The `TreeNode` of the tree module: a package identity, the specifier with
which its parent depends on it, and its children (a JS `Map` keyed on the
child's `name`, in insertion order). -/
inductive TreeNode where
  | node (name : String) (rawSpec : Option String) (children : List TreeNode)

mutual

def TreeNode.beq : TreeNode → TreeNode → Bool
  | .node n1 r1 c1, .node n2 r2 c2 => n1 == n2 && r1 == r2 && TreeNode.beqList c1 c2

def TreeNode.beqList : List TreeNode → List TreeNode → Bool
  | [], [] => true
  | a :: as, b :: bs => TreeNode.beq a b && TreeNode.beqList as bs
  | _, _ => false

end

mutual

theorem TreeNode.beq_iff : ∀ a b : TreeNode, TreeNode.beq a b = true ↔ a = b
  | .node n1 r1 c1, .node n2 r2 c2 => by
    simp only [TreeNode.beq, Bool.and_eq_true, beq_iff_eq, TreeNode.node.injEq]
    rw [TreeNode.beqList_iff c1 c2]
    tauto

theorem TreeNode.beqList_iff : ∀ as bs : List TreeNode, TreeNode.beqList as bs = true ↔ as = bs
  | [], [] => by simp [TreeNode.beqList]
  | [], _ :: _ => by simp [TreeNode.beqList]
  | _ :: _, [] => by simp [TreeNode.beqList]
  | a :: as, b :: bs => by
    simp only [TreeNode.beqList, Bool.and_eq_true, List.cons.injEq]
    rw [TreeNode.beq_iff a b, TreeNode.beqList_iff as bs]

end

instance : DecidableEq TreeNode := fun a b =>
  decidable_of_iff (TreeNode.beq a b = true) (TreeNode.beq_iff a b)

instance {ε α : Type} [DecidableEq ε] [DecidableEq α] : DecidableEq (Except ε α) := fun a b =>
  match a, b with
  | .error x, .error y => decidable_of_iff (x = y) (by simp)
  | .ok x, .ok y => decidable_of_iff (x = y) (by simp)
  | .error _, .ok _ => isFalse (by simp)
  | .ok _, .error _ => isFalse (by simp)

def TreeNode.name : TreeNode → String
  | .node n _ _ => n

def TreeNode.rawSpec : TreeNode → Option String
  | .node _ rs _ => rs

def TreeNode.children : TreeNode → List TreeNode
  | .node _ _ cs => cs

@[simp] theorem TreeNode.name_node (n rs cs) : (TreeNode.node n rs cs).name = n := rfl

@[simp] theorem TreeNode.rawSpec_node (n rs cs) : (TreeNode.node n rs cs).rawSpec = rs := rfl

@[simp] theorem TreeNode.children_node (n rs cs) : (TreeNode.node n rs cs).children = cs := rfl

/-- JavaScript truthiness of an optional string: `undefined` and `""` are
falsy, every other string is truthy. -/
def jsTruthy : Option String → Bool
  | none => false
  | some s => !(s == "")

/-- JavaScript `Map.get` / `Map.has` on the children map: the entry stored under `key`
(the unique child whose `name` is `key`; in the list model, the first). -/
def findFirst (cs : List TreeNode) (key : String) : Option TreeNode :=
  match cs with
  | [] => none
  | c :: rest => if c.name == key then some c else findFirst rest key

/-- In-place mutation of the entry stored under `key` in the children map:
the entry keeps its position, every other entry is untouched. -/
def replaceFirst (cs : List TreeNode) (key : String) (x : TreeNode) : List TreeNode :=
  match cs with
  | [] => []
  | c :: rest => if c.name == key then x :: rest else c :: replaceFirst rest key x

/-- The specifier backfill performed on an existing child
(`if (!existingNode.rawSpec && currentSegment.rawSpec) existingNode.rawSpec = ...`). -/
def backfill (c : TreeNode) (incoming : Option String) : TreeNode :=
  if !jsTruthy c.rawSpec && jsTruthy incoming then
    TreeNode.node c.name incoming c.children
  else c

/-- The `addPathToTreeWithRawSpecChain` function of the tree module: fold the segments of
one chain into the tree, one level at a time.  A missing child is created
with the segment's `rawSpec` and appended to the children map; an existing
child is kept, its specifier backfilled only when it was falsy and the
incoming one is truthy. -/
def addPathToTreeWithRawSpecChain : TreeNode → List Segment → TreeNode
  | t, [] => t
  | t, seg :: rest =>
    match findFirst t.children seg.name with
    | none =>
        TreeNode.node t.name t.rawSpec
          (t.children ++
            [addPathToTreeWithRawSpecChain (TreeNode.node seg.name seg.rawSpec []) rest])
    | some c =>
        TreeNode.node t.name t.rawSpec
          (replaceFirst t.children seg.name
            (addPathToTreeWithRawSpecChain (backfill c seg.rawSpec) rest))

/-- The loop body of `buildTreeFromPathsWithRawSpecChain`: a chain of length
`> 1` is folded in minus its root segment, shorter chains are skipped. -/
def foldStep (t : TreeNode) (p : List Segment) : TreeNode :=
  if p.length > 1 then addPathToTreeWithRawSpecChain t (p.drop 1) else t

/-- The tree builder `buildTreeFromPathsWithRawSpecChain`: throws `'No paths provided'` on an
empty input, otherwise roots the tree at the first chain's first segment name
(`pathsWithRawSpecs[0][0]?.name || ''`) and folds every chain of length `> 1`
into it, dropping the root segment. -/
def buildTreeFromPathsWithRawSpecChain (pathsWithRawSpecs : List (List Segment)) :
    Except String TreeNode :=
  match pathsWithRawSpecs with
  | [] => Except.error "No paths provided"
  | first :: _ =>
    let rootPackage : String :=
      match first.head? with
      | some seg => seg.name
      | none => ""
    let root : TreeNode := TreeNode.node rootPackage none []
    Except.ok (pathsWithRawSpecs.foldl foldStep root)

/-- JavaScript `Array.prototype.join('\n')`. -/
def joinLines : List String → String
  | [] => ""
  | [x] => x
  | x :: y :: rest => x ++ "\n" ++ joinLines (y :: rest)

mutual

/-- The `formatTreeNode` function of the tree module: the root line (when `isRoot`),
then the children's lines. -/
def formatTreeNode : TreeNode → String → Bool → String
  | .node n _ cs, pfx, isRoot =>
    joinLines ((if isRoot then [n] else []) ++ formatChildren cs pfx isRoot)

/-- The per-child loop body of `formatTreeNode`: one line
`<indent> - <identity> (<rawSpec>)` (the parenthesis only when the stored
specifier is truthy), then the child's own rendered block when it has
children and that block is non-empty. -/
def formatChildren : List TreeNode → String → Bool → List String
  | [], _, _ => []
  | c :: rest, pfx, isRoot =>
    let curPre := if isRoot then " - " else pfx ++ " - "
    let nextPre := if isRoot then "   " else pfx ++ "   "
    let childDisplayName :=
      if jsTruthy c.rawSpec then c.name ++ " (" ++ c.rawSpec.getD "" ++ ")" else c.name
    let tail :=
      if c.children.length > 0 then
        let childOutput := formatTreeNode c nextPre false
        if childOutput == "" then [] else [childOutput]
      else []
    (curPre ++ childDisplayName) :: (tail ++ formatChildren rest pfx isRoot)

end

/-- The entry `formatAsUnifiedTreeFromPathsWithRawSpecs`: the public rendering entry
point; returns `''` for an empty path list, otherwise builds and formats the
unified tree (a thrown build error would propagate, hence `Except`). -/
def formatAsUnifiedTreeFromPathsWithRawSpecs (pathsWithRawSpecs : List (List Segment)) :
    Except String String :=
  if pathsWithRawSpecs.length == 0 then Except.ok ""
  else (buildTreeFromPathsWithRawSpecChain pathsWithRawSpecs).map
    (fun root => formatTreeNode root "" true)

example :
    buildTreeFromPathsWithRawSpecChain
      [[⟨"a@1", none⟩, ⟨"b@2", some "^2"⟩, ⟨"c@3", some "^3"⟩],
       [⟨"a@1", none⟩, ⟨"b@2", some "^2"⟩, ⟨"d@4", some "^4"⟩]] =
    Except.ok (TreeNode.node "a@1" none
      [TreeNode.node "b@2" (some "^2")
        [TreeNode.node "c@3" (some "^3") [], TreeNode.node "d@4" (some "^4") []]]) := by
  decide

example :
    formatAsUnifiedTreeFromPathsWithRawSpecs
      [[⟨"send@0.19.1", none⟩, ⟨"honkit@6.0.3", some "^0.17.2"⟩]] =
    Except.ok "send@0.19.1\n - honkit@6.0.3 (^0.17.2)" := by
  decide

/-! ## Measures on trees -/

mutual

/-- Total number of nodes of a tree (the root included). -/
def TreeNode.count : TreeNode → Nat
  | .node _ _ cs => 1 + countList cs

def countList : List TreeNode → Nat
  | [] => 0
  | c :: rest => TreeNode.count c + countList rest

end

mutual

/-- Height of a tree: number of edges on a longest root-to-leaf path. -/
def TreeNode.height : TreeNode → Nat
  | .node _ _ cs => heightList cs

def heightList : List TreeNode → Nat
  | [] => 0
  | c :: rest => max (1 + TreeNode.height c) (heightList rest)

end

/-- Sum of the lengths of all chains of a chain list. -/
def sumLens (ps : List (List Segment)) : Nat :=
  (ps.map List.length).sum

/-- Two chains share a prefix beyond the root exactly when both have a second
segment and those second segments carry the same identity (all chains handed
to the unifier already share their root identity). -/
def sharePre (p q : List Segment) : Bool :=
  match p, q with
  | _ :: a :: _, _ :: b :: _ => a.name == b.name
  | _, _ => false

@[simp] theorem count_node (n rs cs) : (TreeNode.node n rs cs).count = 1 + countList cs := by
  simp [TreeNode.count]

@[simp] theorem countList_nil : countList [] = 0 := by simp [countList]

@[simp] theorem countList_cons (c rest) : countList (c :: rest) = c.count + countList rest := by
  simp [countList]

@[simp] theorem height_node (n rs cs) : (TreeNode.node n rs cs).height = heightList cs := by
  simp [TreeNode.height]

@[simp] theorem heightList_nil : heightList [] = 0 := by simp [heightList]

@[simp] theorem heightList_cons (c rest) :
    heightList (c :: rest) = max (1 + c.height) (heightList rest) := by
  simp [heightList]

theorem countList_append (a b : List TreeNode) :
    countList (a ++ b) = countList a + countList b := by
  induction a with
  | nil => simp
  | cons c rest ih => simp [ih]; omega

theorem heightList_append (a b : List TreeNode) :
    heightList (a ++ b) = max (heightList a) (heightList b) := by
  induction a with
  | nil => simp
  | cons c rest ih => simp [ih]; omega

theorem one_le_count (t : TreeNode) : 1 ≤ t.count := by
  cases t with
  | node n rs cs => simp

mutual

theorem height_lt_count : ∀ t : TreeNode, t.height < t.count
  | .node n rs cs => by
    have h := heightList_le_countList cs
    simp only [height_node, count_node]
    omega

theorem heightList_le_countList : ∀ cs : List TreeNode, heightList cs ≤ countList cs
  | [] => by simp
  | c :: rest => by
    have h1 := height_lt_count c
    have h2 := heightList_le_countList rest
    have h3 := one_le_count c
    simp only [heightList_cons, countList_cons]
    omega

end

/-! ## Basic facts about the children map operations -/

theorem findFirst_name {cs : List TreeNode} {key : String} {c : TreeNode}
    (h : findFirst cs key = some c) : c.name = key := by
  induction cs with
  | nil => simp [findFirst] at h
  | cons d rest ih =>
    simp only [findFirst] at h
    by_cases hd : d.name == key
    · simp [hd] at h
      subst h
      exact eq_of_beq hd
    · simp [hd] at h
      exact ih h

theorem findFirst_append_of_none {cs : List TreeNode} {key : String}
    (h : findFirst cs key = none) (x : TreeNode) :
    findFirst (cs ++ [x]) key = if x.name == key then some x else none := by
  induction cs with
  | nil => simp [findFirst]
  | cons d rest ih =>
    simp only [findFirst, List.cons_append] at h ⊢
    by_cases hd : (d.name == key) = true
    · rw [if_pos hd] at h
      exact absurd h (by simp)
    · rw [if_neg hd] at h
      rw [if_neg hd]
      exact ih h

theorem countList_replaceFirst {cs : List TreeNode} {key : String} {c : TreeNode}
    (h : findFirst cs key = some c) (x : TreeNode) :
    countList (replaceFirst cs key x) + c.count = countList cs + x.count := by
  induction cs with
  | nil => simp [findFirst] at h
  | cons d rest ih =>
    simp only [findFirst] at h
    by_cases hd : d.name == key
    · simp [hd] at h
      subst h
      simp [replaceFirst, hd]
      omega
    · simp [hd] at h
      simp [replaceFirst, hd, countList]
      have := ih h
      omega

theorem heightList_replaceFirst_ge {cs : List TreeNode} {key : String} {c : TreeNode}
    (h : findFirst cs key = some c) {x : TreeNode} (hx : c.height ≤ x.height) :
    heightList cs ≤ heightList (replaceFirst cs key x) := by
  induction cs with
  | nil => simp [findFirst] at h
  | cons d rest ih =>
    simp only [findFirst] at h
    by_cases hd : d.name == key
    · simp [hd] at h
      subst h
      simp [replaceFirst, hd]
      omega
    · simp [hd] at h
      simp [replaceFirst, hd]
      have := ih h
      omega

theorem heightList_replaceFirst_mem {cs : List TreeNode} {key : String} {c : TreeNode}
    (h : findFirst cs key = some c) (x : TreeNode) :
    1 + x.height ≤ heightList (replaceFirst cs key x) := by
  induction cs with
  | nil => simp [findFirst] at h
  | cons d rest ih =>
    simp only [findFirst] at h
    by_cases hd : (d.name == key) = true
    · simp only [replaceFirst, hd, if_true, heightList_cons]
      omega
    · simp [hd] at h
      simp only [replaceFirst]
      rw [if_neg hd]
      simp only [heightList_cons]
      have := ih h
      omega

/-! ## Behaviour of addPathToTreeWithRawSpecChain -/

theorem addPath_nil (t : TreeNode) : addPathToTreeWithRawSpecChain t [] = t := rfl

theorem addPath_cons_none {t : TreeNode} {seg : Segment} {rest : List Segment}
    (hf : findFirst t.children seg.name = none) :
    addPathToTreeWithRawSpecChain t (seg :: rest) =
      TreeNode.node t.name t.rawSpec
        (t.children ++
          [addPathToTreeWithRawSpecChain (TreeNode.node seg.name seg.rawSpec []) rest]) := by
  rw [addPathToTreeWithRawSpecChain, hf]

theorem addPath_cons_some {t : TreeNode} {seg : Segment} {rest : List Segment} {c : TreeNode}
    (hf : findFirst t.children seg.name = some c) :
    addPathToTreeWithRawSpecChain t (seg :: rest) =
      TreeNode.node t.name t.rawSpec
        (replaceFirst t.children seg.name
          (addPathToTreeWithRawSpecChain (backfill c seg.rawSpec) rest)) := by
  rw [addPathToTreeWithRawSpecChain, hf]

theorem name_backfill (c : TreeNode) (i : Option String) : (backfill c i).name = c.name := by
  simp only [backfill]
  split <;> simp

theorem children_backfill (c : TreeNode) (i : Option String) :
    (backfill c i).children = c.children := by
  simp only [backfill]
  split <;> simp

theorem count_backfill (c : TreeNode) (i : Option String) : (backfill c i).count = c.count := by
  cases c with
  | node n rs cs =>
    simp only [backfill]
    split <;> simp

theorem height_backfill (c : TreeNode) (i : Option String) : (backfill c i).height = c.height := by
  cases c with
  | node n rs cs =>
    simp only [backfill]
    split <;> simp

theorem rawSpec_backfill (c : TreeNode) (i : Option String) :
    (backfill c i).rawSpec = if !jsTruthy c.rawSpec && jsTruthy i then i else c.rawSpec := by
  simp only [backfill]
  split <;> simp_all

theorem name_addPath (p : List Segment) (t : TreeNode) :
    (addPathToTreeWithRawSpecChain t p).name = t.name := by
  induction p generalizing t with
  | nil => rfl
  | cons seg rest ih =>
    cases hf : findFirst t.children seg.name with
    | none => rw [addPath_cons_none hf]; simp
    | some c => rw [addPath_cons_some hf]; simp

theorem rawSpec_addPath (p : List Segment) (t : TreeNode) :
    (addPathToTreeWithRawSpecChain t p).rawSpec = t.rawSpec := by
  induction p generalizing t with
  | nil => rfl
  | cons seg rest ih =>
    cases hf : findFirst t.children seg.name with
    | none => rw [addPath_cons_none hf]; simp
    | some c => rw [addPath_cons_some hf]; simp

theorem count_addPath_le (p : List Segment) (t : TreeNode) :
    (addPathToTreeWithRawSpecChain t p).count ≤ t.count + p.length := by
  induction p generalizing t with
  | nil => simp [addPath_nil]
  | cons seg rest ih =>
    cases hf : findFirst t.children seg.name with
    | none =>
      rw [addPath_cons_none hf]
      have h1 := ih (TreeNode.node seg.name seg.rawSpec [])
      cases t with
      | node n rs cs =>
        simp only [TreeNode.children_node] at hf ⊢
        simp only [count_node, countList_append, countList_cons, countList_nil,
          TreeNode.name_node, TreeNode.rawSpec_node, List.length_cons]
        simp only [count_node, countList_nil] at h1
        omega
    | some c =>
      rw [addPath_cons_some hf]
      have h1 := ih (backfill c seg.rawSpec)
      rw [count_backfill] at h1
      cases t with
      | node n rs cs =>
        simp only [TreeNode.children_node] at hf ⊢
        have h2 := countList_replaceFirst hf
          (addPathToTreeWithRawSpecChain (backfill c seg.rawSpec) rest)
        simp only [count_node, List.length_cons]
        omega

theorem height_le_addPath (p : List Segment) (t : TreeNode) :
    t.height ≤ (addPathToTreeWithRawSpecChain t p).height := by
  induction p generalizing t with
  | nil => simp [addPath_nil]
  | cons seg rest ih =>
    cases hf : findFirst t.children seg.name with
    | none =>
      rw [addPath_cons_none hf]
      cases t with
      | node n rs cs =>
        simp only [height_node, TreeNode.children_node, heightList_append, heightList_cons,
          heightList_nil]
        omega
    | some c =>
      rw [addPath_cons_some hf]
      cases t with
      | node n rs cs =>
        simp only [TreeNode.children_node] at hf ⊢
        have hx : c.height ≤ (addPathToTreeWithRawSpecChain (backfill c seg.rawSpec) rest).height := by
          have := ih (backfill c seg.rawSpec)
          rw [height_backfill] at this
          exact this
        have := heightList_replaceFirst_ge hf hx
        simp only [height_node]
        omega

theorem len_le_height_addPath (p : List Segment) (t : TreeNode) :
    p.length ≤ (addPathToTreeWithRawSpecChain t p).height := by
  induction p generalizing t with
  | nil => simp
  | cons seg rest ih =>
    cases hf : findFirst t.children seg.name with
    | none =>
      rw [addPath_cons_none hf]
      have h1 := ih (TreeNode.node seg.name seg.rawSpec [])
      cases t with
      | node n rs cs =>
        simp only [height_node, heightList_append, heightList_cons, heightList_nil,
          List.length_cons]
        omega
    | some c =>
      rw [addPath_cons_some hf]
      have h1 := ih (backfill c seg.rawSpec)
      cases t with
      | node n rs cs =>
        simp only [TreeNode.children_node] at hf ⊢
        have h2 := heightList_replaceFirst_mem hf
          (addPathToTreeWithRawSpecChain (backfill c seg.rawSpec) rest)
        simp only [height_node, List.length_cons]
        omega

/-! ## Behaviour of the build fold -/

theorem name_foldStep (t : TreeNode) (p : List Segment) : (foldStep t p).name = t.name := by
  simp only [foldStep]
  split
  · exact name_addPath _ _
  · rfl

theorem count_foldStep_le (t : TreeNode) (p : List Segment) :
    (foldStep t p).count ≤ t.count + (p.length - 1) := by
  simp only [foldStep]
  split
  · have := count_addPath_le (p.drop 1) t
    simp only [List.length_drop] at this
    omega
  · omega

theorem height_le_foldStep (t : TreeNode) (p : List Segment) :
    t.height ≤ (foldStep t p).height := by
  simp only [foldStep]
  split
  · exact height_le_addPath _ _
  · omega

theorem len_le_height_foldStep (t : TreeNode) (p : List Segment) :
    p.length - 1 ≤ (foldStep t p).height := by
  simp only [foldStep]
  split
  · have := len_le_height_addPath (p.drop 1) t
    simp only [List.length_drop] at this
    omega
  · omega

theorem name_foldl (ps : List (List Segment)) (t : TreeNode) :
    (List.foldl foldStep t ps).name = t.name := by
  induction ps generalizing t with
  | nil => rfl
  | cons p rest ih =>
    simp only [List.foldl_cons]
    rw [ih, name_foldStep]

theorem count_foldl_le (ps : List (List Segment)) (t : TreeNode) :
    (List.foldl foldStep t ps).count ≤ t.count + (ps.map (fun p => p.length - 1)).sum := by
  induction ps generalizing t with
  | nil => simp
  | cons p rest ih =>
    simp only [List.foldl_cons, List.map_cons, List.sum_cons]
    have h1 := ih (foldStep t p)
    have h2 := count_foldStep_le t p
    omega

theorem height_le_foldl (ps : List (List Segment)) (t : TreeNode) :
    t.height ≤ (List.foldl foldStep t ps).height := by
  induction ps generalizing t with
  | nil => simp
  | cons p rest ih =>
    simp only [List.foldl_cons]
    exact le_trans (height_le_foldStep t p) (ih (foldStep t p))

theorem mem_len_le_height_foldl {ps : List (List Segment)} {p : List Segment}
    (h : p ∈ ps) (t : TreeNode) :
    p.length - 1 ≤ (List.foldl foldStep t ps).height := by
  induction ps generalizing t with
  | nil => simp at h
  | cons q rest ih =>
    simp only [List.foldl_cons]
    rcases List.mem_cons.mp h with rfl | hmem
    · exact le_trans (len_le_height_foldStep t p) (height_le_foldl rest (foldStep t p))
    · exact ih hmem (foldStep t q)

theorem sum_sub_one_add_length {ps : List (List Segment)} (h : ∀ p ∈ ps, p ≠ []) :
    (ps.map (fun p => p.length - 1)).sum + ps.length = sumLens ps := by
  induction ps with
  | nil => simp [sumLens]
  | cons p rest ih =>
    simp only [List.map_cons, List.sum_cons, List.length_cons, sumLens, List.map_cons,
      List.sum_cons] at ih ⊢
    have hp : p ≠ [] := h p (List.mem_cons_self p rest)
    have hlen : 1 ≤ p.length := by
      cases p with
      | nil => exact absurd rfl hp
      | cons a as => simp
    have ih2 := ih (fun q hq => h q (List.mem_cons_of_mem p hq))
    simp only [sumLens] at ih2
    omega

theorem build_cons (first : List Segment) (rest : List (List Segment)) :
    buildTreeFromPathsWithRawSpecChain (first :: rest) =
      Except.ok (List.foldl foldStep
        (TreeNode.node
          (match first.head? with
           | some seg => seg.name
           | none => "") none [])
        (first :: rest)) := rfl

/-- Claim C5: The tree unifier fails with the `'No paths provided'` error if and
only if its input list of chains is empty; on every non-empty input it
returns a tree without raising. -/
theorem C5_unifier_empty_input_contract (ps : List (List Segment)) :
    (buildTreeFromPathsWithRawSpecChain ps = Except.error "No paths provided" ↔ ps = []) ∧
    (ps ≠ [] → ∃ t, buildTreeFromPathsWithRawSpecChain ps = Except.ok t) := by
  constructor
  · constructor
    · intro h
      cases ps with
      | nil => rfl
      | cons a b =>
        rw [build_cons] at h
        cases h
    · rintro rfl
      rfl
  · intro h
    cases ps with
    | nil => exact absurd rfl h
    | cons a b => exact ⟨_, build_cons a b⟩

/-- Witness for C5 at concrete inputs: the empty list errors, a singleton
chain list builds a tree. -/
theorem C5_unifier_empty_input_contract_witness :
    buildTreeFromPathsWithRawSpecChain ([] : List (List Segment)) =
        Except.error "No paths provided" ∧
    buildTreeFromPathsWithRawSpecChain [[⟨"a@1", none⟩]] =
        Except.ok (TreeNode.node "a@1" none []) := by
  refine ⟨(C5_unifier_empty_input_contract []).1.mpr rfl, ?_⟩
  obtain ⟨t, ht⟩ := (C5_unifier_empty_input_contract [[⟨"a@1", none⟩]]).2 (by simp)
  have h2 : (Except.ok t : Except String TreeNode) =
      Except.ok (TreeNode.node "a@1" none []) := by
    rw [← ht]
    decide
  exact ht.trans h2

/-- Claim C1 (amended): For every non-empty list of chains sharing a common
root identity `r`, the unifier returns a tree whose root name is `r`, whose
node count is at least each chain's length (in particular the longest one's)
and at most the sum of all chains' lengths; equality at the sum bound holds
*only when* no two chains share any prefix beyond the root (the original
claim's "exactly when" fails: sharing-free chain lists with two or more
chains stay strictly below the sum bound, see the counterexample). -/
theorem C1_unify_root_and_node_count_bounds
    (ps : List (List Segment)) (r : String)
    (hne : ps ≠ [])
    (hroot : ∀ p ∈ ps, (p.head?).map Segment.name = some r) :
    ∃ t, buildTreeFromPathsWithRawSpecChain ps = Except.ok t ∧
      t.name = r ∧
      (∀ p ∈ ps, p.length ≤ t.count) ∧
      t.count ≤ sumLens ps ∧
      (t.count = sumLens ps → ps.Pairwise (fun p q => sharePre p q = false)) := by
  obtain ⟨first, rest, rfl⟩ : ∃ f r2, ps = f :: r2 := by
    cases ps with
    | nil => exact absurd rfl hne
    | cons a b => exact ⟨a, b, rfl⟩
  have hnonempty : ∀ p ∈ first :: rest, p ≠ [] := by
    intro p hp hcon
    have := hroot p hp
    subst hcon
    simp at this
  obtain ⟨seg, segs, rfl⟩ : ∃ s ss, first = s :: ss := by
    cases first with
    | nil => exact absurd rfl (hnonempty [] (by simp))
    | cons s ss => exact ⟨s, ss, rfl⟩
  have hsegname : seg.name = r := by
    have := hroot (seg :: segs) (by simp)
    simpa using this
  rw [build_cons]
  refine ⟨_, rfl, ?_, ?_, ?_, ?_⟩
  · rw [name_foldl]
    simpa using hsegname
  · intro p hp
    have h1 := mem_len_le_height_foldl hp
      (TreeNode.node (match (seg :: segs).head? with
        | some s => s.name
        | none => "") none [])
    have h2 := height_lt_count (List.foldl foldStep
      (TreeNode.node (match (seg :: segs).head? with
        | some s => s.name
        | none => "") none []) ((seg :: segs) :: rest))
    have h3 : p ≠ [] := hnonempty p hp
    have h4 : 1 ≤ p.length := by
      cases p with
      | nil => exact absurd rfl h3
      | cons a as => simp
    omega
  · have h1 := count_foldl_le ((seg :: segs) :: rest)
      (TreeNode.node (match (seg :: segs).head? with
        | some s => s.name
        | none => "") none [])
    have h2 := sum_sub_one_add_length hnonempty
    have h3 : (1 : Nat) ≤ ((seg :: segs) :: rest).length := by simp
    simp only [count_node, countList_nil] at h1
    omega
  · intro heq
    have h1 := count_foldl_le ((seg :: segs) :: rest)
      (TreeNode.node (match (seg :: segs).head? with
        | some s => s.name
        | none => "") none [])
    have h2 := sum_sub_one_add_length hnonempty
    simp only [count_node, countList_nil] at h1
    have hlen : ((seg :: segs) :: rest).length ≤ 1 := by omega
    have : rest = [] := by
      cases rest with
      | nil => rfl
      | cons a b => simp at hlen
    subst this
    simp

/-- Counterexample to C1 as stated: the two chains `a@1 > b@2` and
`a@1 > c@3` share a common root and share no prefix beyond the root, yet the
unified tree has 3 nodes while the chains' lengths sum to 4 — the "exactly
when" (sufficiency) direction of the sum-bound equality is false. -/
theorem C1_unify_sum_bound_counterexample :
    sharePre [⟨"a@1", none⟩, ⟨"b@2", none⟩] [⟨"a@1", none⟩, ⟨"c@3", none⟩] = false ∧
    sharePre [⟨"a@1", none⟩, ⟨"c@3", none⟩] [⟨"a@1", none⟩, ⟨"b@2", none⟩] = false ∧
    buildTreeFromPathsWithRawSpecChain
        [[⟨"a@1", none⟩, ⟨"b@2", none⟩], [⟨"a@1", none⟩, ⟨"c@3", none⟩]] =
      Except.ok (TreeNode.node "a@1" none
        [TreeNode.node "b@2" none [], TreeNode.node "c@3" none []]) ∧
    (TreeNode.node "a@1" none
        [TreeNode.node "b@2" none [], TreeNode.node "c@3" none []]).count = 3 ∧
    sumLens [[⟨"a@1", none⟩, ⟨"b@2", none⟩], [⟨"a@1", none⟩, ⟨"c@3", none⟩]] = 4 := by
  decide

/-- Witness for the amended C1 at a concrete input. -/
theorem C1_unify_root_and_node_count_bounds_witness :
    ∃ t, buildTreeFromPathsWithRawSpecChain
        [[⟨"a@1", none⟩, ⟨"b@2", some "^2"⟩], [⟨"a@1", none⟩, ⟨"c@3", none⟩]] = Except.ok t ∧
      t.name = "a@1" ∧
      (∀ p ∈ [[(⟨"a@1", none⟩ : Segment), ⟨"b@2", some "^2"⟩], [⟨"a@1", none⟩, ⟨"c@3", none⟩]],
        p.length ≤ t.count) ∧
      t.count ≤ sumLens [[⟨"a@1", none⟩, ⟨"b@2", some "^2"⟩], [⟨"a@1", none⟩, ⟨"c@3", none⟩]] ∧
      (t.count = sumLens [[⟨"a@1", none⟩, ⟨"b@2", some "^2"⟩], [⟨"a@1", none⟩, ⟨"c@3", none⟩]] →
        List.Pairwise (fun p q => sharePre p q = false)
          [[(⟨"a@1", none⟩ : Segment), ⟨"b@2", some "^2"⟩], [⟨"a@1", none⟩, ⟨"c@3", none⟩]]) :=
  C1_unify_root_and_node_count_bounds
    [[⟨"a@1", none⟩, ⟨"b@2", some "^2"⟩], [⟨"a@1", none⟩, ⟨"c@3", none⟩]] "a@1"
    (by simp) (by decide)

/-! ## C2: no duplicate identities among the children of a node -/

/-- No string occurs twice in the list (checked front to back). -/
def dedupCheck : List String → Bool
  | [] => true
  | x :: xs => !(xs.contains x) && dedupCheck xs

mutual

/-- Every node of the tree has pairwise distinct child identities. -/
def TreeNode.uniqueChildNames : TreeNode → Bool
  | .node _ _ cs => dedupCheck (cs.map TreeNode.name) && uniqueAll cs

def uniqueAll : List TreeNode → Bool
  | [] => true
  | c :: rest => c.uniqueChildNames && uniqueAll rest

end

@[simp] theorem uniqueChildNames_node (n rs cs) :
    (TreeNode.node n rs cs).uniqueChildNames = (dedupCheck (cs.map TreeNode.name) && uniqueAll cs) := by
  simp [TreeNode.uniqueChildNames]

@[simp] theorem uniqueAll_nil : uniqueAll [] = true := by simp [uniqueAll]

@[simp] theorem uniqueAll_cons (c rest) :
    uniqueAll (c :: rest) = (c.uniqueChildNames && uniqueAll rest) := by
  simp [uniqueAll]

theorem uniqueAll_append (a b : List TreeNode) :
    uniqueAll (a ++ b) = (uniqueAll a && uniqueAll b) := by
  induction a with
  | nil => simp
  | cons c rest ih => simp [ih, Bool.and_assoc]

theorem dedupCheck_iff (xs : List String) : dedupCheck xs = true ↔ xs.Nodup := by
  induction xs with
  | nil => simp [dedupCheck]
  | cons x ys ih => simp [dedupCheck, ih, List.nodup_cons]

theorem findFirst_none_not_mem {cs : List TreeNode} {key : String}
    (h : findFirst cs key = none) : key ∉ cs.map TreeNode.name := by
  induction cs with
  | nil => simp
  | cons c rest ih =>
    simp only [findFirst] at h
    by_cases hd : (c.name == key) = true
    · rw [if_pos hd] at h
      cases h
    · rw [if_neg hd] at h
      simp only [List.map_cons, List.mem_cons, not_or]
      refine ⟨?_, ih h⟩
      intro hk
      exact hd (by rw [beq_iff_eq]; exact hk.symm)

theorem findFirst_mem {cs : List TreeNode} {key : String} {c : TreeNode}
    (h : findFirst cs key = some c) : c ∈ cs := by
  induction cs with
  | nil => simp [findFirst] at h
  | cons d rest ih =>
    simp only [findFirst] at h
    by_cases hd : (d.name == key) = true
    · rw [if_pos hd] at h
      injection h with h2
      subst h2
      simp
    · rw [if_neg hd] at h
      exact List.mem_cons_of_mem d (ih h)

theorem map_name_replaceFirst {cs : List TreeNode} {key : String} {c x : TreeNode}
    (h : findFirst cs key = some c) (hx : x.name = key) :
    (replaceFirst cs key x).map TreeNode.name = cs.map TreeNode.name := by
  induction cs with
  | nil => simp [replaceFirst]
  | cons d rest ih =>
    simp only [findFirst] at h
    by_cases hd : (d.name == key) = true
    · simp only [replaceFirst, hd, if_true, List.map_cons]
      rw [hx, eq_of_beq hd]
    · rw [if_neg hd] at h
      simp only [replaceFirst]
      rw [if_neg hd]
      simp [ih h]

theorem uniqueAll_replaceFirst {cs : List TreeNode} {key : String} {x : TreeNode}
    (h : uniqueAll cs = true) (hx : x.uniqueChildNames = true) :
    uniqueAll (replaceFirst cs key x) = true := by
  induction cs with
  | nil => simp [replaceFirst]
  | cons d rest ih =>
    simp only [uniqueAll_cons, Bool.and_eq_true] at h
    simp only [replaceFirst]
    by_cases hd : (d.name == key) = true
    · rw [if_pos hd]
      simp [hx, h.2]
    · rw [if_neg hd]
      simp [h.1, ih h.2]

theorem uniqueAll_mem {cs : List TreeNode} {c : TreeNode}
    (h : uniqueAll cs = true) (hm : c ∈ cs) : c.uniqueChildNames = true := by
  induction cs with
  | nil => simp at hm
  | cons d rest ih =>
    simp only [uniqueAll_cons, Bool.and_eq_true] at h
    rcases List.mem_cons.mp hm with rfl | hm2
    · exact h.1
    · exact ih h.2 hm2

theorem uniqueChildNames_backfill (c : TreeNode) (i : Option String) :
    (backfill c i).uniqueChildNames = c.uniqueChildNames := by
  cases c with
  | node n rs cs =>
    simp only [backfill]
    split <;> simp

theorem unique_addPath (p : List Segment) (t : TreeNode)
    (h : t.uniqueChildNames = true) :
    (addPathToTreeWithRawSpecChain t p).uniqueChildNames = true := by
  induction p generalizing t with
  | nil => simpa [addPath_nil] using h
  | cons seg rest ih =>
    cases t with
    | node n rs cs =>
      simp only [uniqueChildNames_node, Bool.and_eq_true] at h
      cases hf : findFirst (TreeNode.node n rs cs).children seg.name with
      | none =>
        rw [addPath_cons_none hf]
        simp only [TreeNode.children_node] at hf ⊢
        have hxname : (addPathToTreeWithRawSpecChain
            (TreeNode.node seg.name seg.rawSpec []) rest).name = seg.name := by
          rw [name_addPath]
          simp
        have hxu : (addPathToTreeWithRawSpecChain
            (TreeNode.node seg.name seg.rawSpec []) rest).uniqueChildNames = true := by
          apply ih
          simp [dedupCheck]
        simp only [uniqueChildNames_node, List.map_append, List.map_cons, List.map_nil,
          Bool.and_eq_true, hxname]
        refine ⟨?_, ?_⟩
        · rw [dedupCheck_iff, List.nodup_append]
          refine ⟨(dedupCheck_iff _).mp h.1, by simp, ?_⟩
          intro a ha hmem
          simp only [List.mem_singleton] at hmem
          subst hmem
          exact findFirst_none_not_mem hf ha
        · rw [uniqueAll_append]
          simp [h.2, hxu]
      | some c =>
        rw [addPath_cons_some hf]
        simp only [TreeNode.children_node] at hf ⊢
        have hcn : c.name = seg.name := findFirst_name hf
        have hxname : (addPathToTreeWithRawSpecChain (backfill c seg.rawSpec) rest).name
            = seg.name := by
          rw [name_addPath, name_backfill, hcn]
        have hxu : (addPathToTreeWithRawSpecChain (backfill c seg.rawSpec) rest).uniqueChildNames
            = true := by
          apply ih
          rw [uniqueChildNames_backfill]
          exact uniqueAll_mem h.2 (findFirst_mem hf)
        simp only [uniqueChildNames_node, Bool.and_eq_true]
        refine ⟨?_, ?_⟩
        · rw [map_name_replaceFirst hf hxname]
          exact h.1
        · exact uniqueAll_replaceFirst h.2 hxu

theorem unique_foldl (ps : List (List Segment)) (t : TreeNode)
    (h : t.uniqueChildNames = true) :
    (List.foldl foldStep t ps).uniqueChildNames = true := by
  induction ps generalizing t with
  | nil => simpa using h
  | cons p rest ih =>
    simp only [List.foldl_cons]
    apply ih
    simp only [foldStep]
    split
    · exact unique_addPath _ _ h
    · exact h

/-- Claim C2: Every tree produced by `buildTreeFromPathsWithRawSpecChain` has
pairwise distinct identities among the children of each node; in particular,
unifying `a@1 > b@2 > c@3` and `a@1 > b@2 > d@4` yields root `a@1` with the
single (non-duplicated) child `b@2` carrying the two children `c@3` and
`d@4`. -/
theorem C2_no_duplicate_children (ps : List (List Segment)) :
    (∀ t, buildTreeFromPathsWithRawSpecChain ps = Except.ok t → t.uniqueChildNames = true) ∧
    buildTreeFromPathsWithRawSpecChain
        [[⟨"a@1", none⟩, ⟨"b@2", none⟩, ⟨"c@3", none⟩],
         [⟨"a@1", none⟩, ⟨"b@2", none⟩, ⟨"d@4", none⟩]] =
      Except.ok (TreeNode.node "a@1" none
        [TreeNode.node "b@2" none
          [TreeNode.node "c@3" none [], TreeNode.node "d@4" none []]]) := by
  constructor
  · intro t ht
    cases ps with
    | nil => exact Except.noConfusion ht
    | cons first rest =>
      rw [build_cons] at ht
      injection ht with ht2
      subst ht2
      apply unique_foldl
      simp [dedupCheck]
  · decide

/-- Witness for C2: the invariant evaluated on the scenario-C tree. -/
theorem C2_no_duplicate_children_witness :
    (TreeNode.node "a@1" none
      [TreeNode.node "b@2" none
        [TreeNode.node "c@3" none [], TreeNode.node "d@4" none []]]).uniqueChildNames = true :=
  (C2_no_duplicate_children
      [[⟨"a@1", none⟩, ⟨"b@2", none⟩, ⟨"c@3", none⟩],
       [⟨"a@1", none⟩, ⟨"b@2", none⟩, ⟨"d@4", none⟩]]).1
    (TreeNode.node "a@1" none
      [TreeNode.node "b@2" none
        [TreeNode.node "c@3" none [], TreeNode.node "d@4" none []]])
    (by decide)

/-! ## C4: inserting an already-absorbed chain is the identity -/

/-- Predicate `absorbed t p` says the tree already fully contains the (root-stripped)
chain `p`: each segment finds an existing child, and wherever the segment's
specifier is truthy the stored one is truthy too, so no backfill can fire. -/
def absorbed : TreeNode → List Segment → Bool
  | _, [] => true
  | t, s :: rest =>
    match findFirst t.children s.name with
    | none => false
    | some c => (!jsTruthy s.rawSpec || jsTruthy c.rawSpec) && absorbed c rest

theorem TreeNode.eta (t : TreeNode) : TreeNode.node t.name t.rawSpec t.children = t := by
  cases t
  rfl

theorem absorbed_spec_irrelevant (n : String) (rs rs' : Option String) (cs : List TreeNode)
    (p : List Segment) :
    absorbed (TreeNode.node n rs cs) p = absorbed (TreeNode.node n rs' cs) p := by
  cases p <;> simp [absorbed]

theorem absorbed_backfill (c : TreeNode) (i : Option String) (p : List Segment) :
    absorbed (backfill c i) p = absorbed c p := by
  cases c with
  | node n rs cs =>
    simp only [backfill]
    split
    · exact absorbed_spec_irrelevant n i rs cs p
    · rfl

theorem backfill_id_of_cond {c : TreeNode} {i : Option String}
    (h : (!jsTruthy i || jsTruthy c.rawSpec) = true) : backfill c i = c := by
  simp only [backfill]
  rw [if_neg]
  simp only [Bool.and_eq_true, Bool.not_eq_true', Bool.or_eq_true, Bool.not_eq_true] at h ⊢
  intro hcon
  rcases h with h | h
  · rw [hcon.2] at h
    cases h
  · rw [hcon.1] at h
    cases h

theorem jsTruthy_backfill_of (c : TreeNode) (i : Option String)
    (h : jsTruthy c.rawSpec = true) : jsTruthy (backfill c i).rawSpec = true := by
  rw [rawSpec_backfill]
  rw [h]
  simp [h]

theorem replaceFirst_self {cs : List TreeNode} {key : String} {c : TreeNode}
    (h : findFirst cs key = some c) : replaceFirst cs key c = cs := by
  induction cs with
  | nil => rfl
  | cons d rest ih =>
    simp only [findFirst] at h
    simp only [replaceFirst]
    by_cases hd : (d.name == key) = true
    · rw [if_pos hd] at h
      rw [if_pos hd]
      injection h with h2
      rw [h2]
    · rw [if_neg hd] at h
      rw [if_neg hd, ih h]

theorem findFirst_replaceFirst_self {cs : List TreeNode} {key : String} {c : TreeNode}
    (h : findFirst cs key = some c) {x : TreeNode} (hx : x.name = key) :
    findFirst (replaceFirst cs key x) key = some x := by
  induction cs with
  | nil => simp [findFirst] at h
  | cons d rest ih =>
    simp only [findFirst] at h
    simp only [replaceFirst]
    by_cases hd : (d.name == key) = true
    · rw [if_pos hd]
      simp only [findFirst]
      rw [if_pos (by rw [beq_iff_eq]; exact hx)]
    · rw [if_neg hd] at h
      rw [if_neg hd]
      simp only [findFirst]
      rw [if_neg hd]
      exact ih h

theorem findFirst_replaceFirst_other (cs : List TreeNode) {key key2 : String}
    (x : TreeNode) (hx : x.name = key) (hne : key2 ≠ key) :
    findFirst (replaceFirst cs key x) key2 = findFirst cs key2 := by
  induction cs with
  | nil => rfl
  | cons d rest ih =>
    simp only [replaceFirst]
    by_cases hd : (d.name == key) = true
    · rw [if_pos hd]
      simp only [findFirst]
      have hxk : (x.name == key2) = false := by
        rw [beq_eq_false_iff_ne, hx]
        exact fun h2 => hne h2.symm
      have hdk : (d.name == key2) = false := by
        rw [beq_eq_false_iff_ne, eq_of_beq hd]
        exact fun h2 => hne h2.symm
      rw [if_neg (by rw [hxk]; exact Bool.false_ne_true), if_neg (by rw [hdk]; exact Bool.false_ne_true)]
    · rw [if_neg hd]
      simp only [findFirst]
      rw [ih]

theorem findFirst_append_left {cs : List TreeNode} {key : String} {c : TreeNode}
    (h : findFirst cs key = some c) (l : List TreeNode) :
    findFirst (cs ++ l) key = some c := by
  induction cs with
  | nil => simp [findFirst] at h
  | cons d rest ih =>
    simp only [findFirst, List.cons_append] at h ⊢
    by_cases hd : (d.name == key) = true
    · rw [if_pos hd] at h ⊢
      exact h
    · rw [if_neg hd] at h ⊢
      exact ih h

theorem addPath_of_absorbed (p : List Segment) (t : TreeNode)
    (h : absorbed t p = true) : addPathToTreeWithRawSpecChain t p = t := by
  induction p generalizing t with
  | nil => rfl
  | cons s rest ih =>
    simp only [absorbed] at h
    cases hf : findFirst t.children s.name with
    | none => rw [hf] at h; cases h
    | some c =>
      rw [hf] at h
      simp only [Bool.and_eq_true] at h
      rw [addPath_cons_some hf]
      rw [backfill_id_of_cond h.1]
      rw [ih c h.2]
      rw [replaceFirst_self hf]
      exact TreeNode.eta t

theorem absorbed_addPath (p : List Segment) (t : TreeNode) :
    absorbed (addPathToTreeWithRawSpecChain t p) p = true := by
  induction p generalizing t with
  | nil => rfl
  | cons s rest ih =>
    cases hf : findFirst t.children s.name with
    | none =>
      rw [addPath_cons_none hf]
      simp only [absorbed, TreeNode.children_node]
      have hxname : (addPathToTreeWithRawSpecChain
          (TreeNode.node s.name s.rawSpec []) rest).name = s.name := by
        rw [name_addPath]
        simp
      rw [findFirst_append_of_none hf, if_pos (by rw [beq_iff_eq]; exact hxname)]
      simp only [Bool.and_eq_true]
      constructor
      · have hxs : (addPathToTreeWithRawSpecChain
            (TreeNode.node s.name s.rawSpec []) rest).rawSpec = s.rawSpec := by
          rw [rawSpec_addPath]
          simp
        rw [hxs]
        cases jsTruthy s.rawSpec <;> simp
      · exact ih _
    | some c =>
      rw [addPath_cons_some hf]
      simp only [absorbed, TreeNode.children_node]
      have hxname : (addPathToTreeWithRawSpecChain (backfill c s.rawSpec) rest).name
          = s.name := by
        rw [name_addPath, name_backfill]
        exact findFirst_name hf
      rw [findFirst_replaceFirst_self hf hxname]
      simp only [Bool.and_eq_true]
      constructor
      · have hxs : (addPathToTreeWithRawSpecChain (backfill c s.rawSpec) rest).rawSpec
            = (backfill c s.rawSpec).rawSpec := rawSpec_addPath _ _
        rw [hxs, rawSpec_backfill]
        cases hts : jsTruthy s.rawSpec
        · simp
        · simp only [Bool.or_eq_true, Bool.not_eq_true', hts]
          cases htc : jsTruthy c.rawSpec
          · simp [htc, hts]
          · simp [htc, hts]
      · exact ih _

theorem absorbed_addPath_preserved (p : List Segment) (t : TreeNode) (q : List Segment)
    (h : absorbed t p = true) :
    absorbed (addPathToTreeWithRawSpecChain t q) p = true := by
  induction p generalizing t q with
  | nil => rfl
  | cons s rest ih =>
    simp only [absorbed] at h
    cases hf : findFirst t.children s.name with
    | none => rw [hf] at h; cases h
    | some c =>
      rw [hf] at h
      simp only [Bool.and_eq_true] at h
      cases q with
      | nil =>
        rw [addPath_nil]
        simp only [absorbed, hf, Bool.and_eq_true]
        exact ⟨h.1, h.2⟩
      | cons s2 rest2 =>
        cases hf2 : findFirst t.children s2.name with
        | none =>
          rw [addPath_cons_none hf2]
          simp only [absorbed, TreeNode.children_node]
          rw [findFirst_append_left hf]
          simp only [Bool.and_eq_true]
          exact ⟨h.1, h.2⟩
        | some c2 =>
          rw [addPath_cons_some hf2]
          simp only [absorbed, TreeNode.children_node]
          by_cases heq : s2.name = s.name
          · rw [heq] at hf2 ⊢
            have hcc : c2 = c := by
              rw [hf] at hf2
              injection hf2 with h2
              exact h2.symm
            subst hcc
            have hxname : (addPathToTreeWithRawSpecChain (backfill c2 s2.rawSpec) rest2).name
                = s.name := by
              rw [name_addPath, name_backfill]
              exact findFirst_name hf
            rw [findFirst_replaceFirst_self hf hxname]
            simp only [Bool.and_eq_true]
            constructor
            · have hxs : (addPathToTreeWithRawSpecChain (backfill c2 s2.rawSpec) rest2).rawSpec
                  = (backfill c2 s2.rawSpec).rawSpec := rawSpec_addPath _ _
              rw [hxs, rawSpec_backfill]
              rcases Bool.or_eq_true_iff.mp h.1 with hcase | hcase
              · rw [hcase]
                simp
              · rw [hcase]
                simp [hcase]
            · have habs : absorbed (backfill c2 s2.rawSpec) rest = true := by
                rw [absorbed_backfill]
                exact h.2
              exact ih (backfill c2 s2.rawSpec) rest2 habs
          · have hxname : (addPathToTreeWithRawSpecChain (backfill c2 s2.rawSpec) rest2).name
                = s2.name := by
              rw [name_addPath, name_backfill]
              exact findFirst_name hf2
            rw [findFirst_replaceFirst_other t.children _ hxname (fun hh => heq hh.symm)]
            rw [hf]
            simp only [Bool.and_eq_true]
            exact ⟨h.1, h.2⟩

theorem absorbed_foldStep_preserved (t : TreeNode) (q p : List Segment)
    (h : absorbed t p = true) : absorbed (foldStep t q) p = true := by
  simp only [foldStep]
  split
  · exact absorbed_addPath_preserved p t _ h
  · exact h

theorem absorbed_foldl_preserved (qs : List (List Segment)) (t : TreeNode) (p : List Segment)
    (h : absorbed t p = true) : absorbed (List.foldl foldStep t qs) p = true := by
  induction qs generalizing t with
  | nil => exact h
  | cons q rest ih => exact ih (foldStep t q) (absorbed_foldStep_preserved t q p h)

theorem absorbed_foldl_mem {ps : List (List Segment)} {p : List Segment}
    (hmem : p ∈ ps) (hlen : p.length > 1) (t : TreeNode) :
    absorbed (List.foldl foldStep t ps) (p.drop 1) = true := by
  induction ps generalizing t with
  | nil => simp at hmem
  | cons q rest ih =>
    rcases List.mem_cons.mp hmem with rfl | hm
    · simp only [List.foldl_cons]
      apply absorbed_foldl_preserved
      have hstep : foldStep t p = addPathToTreeWithRawSpecChain t (p.drop 1) := by
        simp only [foldStep]
        rw [if_pos hlen]
      rw [hstep]
      exact absorbed_addPath _ _
    · simp only [List.foldl_cons]
      exact ih hm (foldStep t q)

/-- Claim C4: Unification is insensitive to duplicate chains: appending a
duplicate of a chain already present to the list and unifying again yields
the very same result tree (hence identical node count and identical
specifiers at every node). -/
theorem C4_duplicate_chain_insensitive (ps : List (List Segment)) (p : List Segment)
    (hmem : p ∈ ps) :
    buildTreeFromPathsWithRawSpecChain (ps ++ [p]) = buildTreeFromPathsWithRawSpecChain ps := by
  obtain ⟨first, rest, rfl⟩ : ∃ f r2, ps = f :: r2 := by
    cases ps with
    | nil => simp at hmem
    | cons a b => exact ⟨a, b, rfl⟩
  rw [List.cons_append, build_cons first (rest ++ [p]), build_cons first rest]
  have hfold : ∀ root : TreeNode,
      List.foldl foldStep root (first :: (rest ++ [p])) =
      foldStep (List.foldl foldStep root (first :: rest)) p := by
    intro root
    rw [← List.cons_append, List.foldl_append]
    simp
  rw [hfold]
  congr 1
  by_cases hlen : p.length > 1
  · simp only [foldStep]
    rw [if_pos hlen]
    apply addPath_of_absorbed
    exact absorbed_foldl_mem hmem hlen _
  · simp only [foldStep]
    rw [if_neg hlen]

/-- Witness for C4: duplicating the only chain of a singleton list leaves
the built tree unchanged. -/
theorem C4_duplicate_chain_insensitive_witness :
    buildTreeFromPathsWithRawSpecChain
        ([[⟨"a@1", none⟩, ⟨"b@2", some "^2"⟩]] ++ [[⟨"a@1", none⟩, ⟨"b@2", some "^2"⟩]]) =
      buildTreeFromPathsWithRawSpecChain [[⟨"a@1", none⟩, ⟨"b@2", some "^2"⟩]] :=
  C4_duplicate_chain_insensitive [[⟨"a@1", none⟩, ⟨"b@2", some "^2"⟩]]
    [⟨"a@1", none⟩, ⟨"b@2", some "^2"⟩] (by simp)

/-! ## C3: first-non-absent-wins for specifiers -/

/-- Merge of a stored and an incoming specifier at an existing node: the
stored one is replaced only when it is falsy and the incoming one truthy. -/
def mergedSpec (x y : Option String) : Option String :=
  if !jsTruthy x && jsTruthy y then y else x

/-- The linear (single-path) tree spelled by one chain below a given root. -/
def linear : String → Option String → List Segment → TreeNode
  | n, rs, [] => TreeNode.node n rs []
  | n, rs, s :: rest => TreeNode.node n rs [linear s.name s.rawSpec rest]

/-- Pointwise specifier merge of two chains with identical identity
sequences: per position, `mergedSpec` of the first chain's and the second
chain's specifier. -/
def mergeSpecs : List Segment → List Segment → List Segment
  | [], _ => []
  | p, [] => p
  | a :: as, b :: bs => ⟨a.name, mergedSpec a.rawSpec b.rawSpec⟩ :: mergeSpecs as bs

@[simp] theorem linear_name (n rs p) : (linear n rs p).name = n := by
  cases p <;> rfl

@[simp] theorem linear_rawSpec (n rs p) : (linear n rs p).rawSpec = rs := by
  cases p <;> rfl

theorem linear_eq_node (n rs p) :
    linear n rs p = TreeNode.node n rs ((linear n rs p).children) := by
  cases p <;> rfl

theorem linear_children_spec_irrelevant (n : String) (x y : Option String) (p : List Segment) :
    (linear n x p).children = (linear n y p).children := by
  cases p <;> rfl

theorem replaceFirst_length (cs : List TreeNode) (key : String) (x : TreeNode) :
    (replaceFirst cs key x).length = cs.length := by
  induction cs with
  | nil => rfl
  | cons d rest ih =>
    simp only [replaceFirst]
    split <;> simp [ih]

theorem backfill_linear (n : String) (x y : Option String) (as : List Segment) :
    backfill (linear n x as) y = linear n (mergedSpec x y) as := by
  simp only [backfill, linear_rawSpec, linear_name, mergedSpec]
  by_cases hc : (!jsTruthy x && jsTruthy y) = true
  · rw [if_pos hc, if_pos hc]
    rw [linear_eq_node n y as]
    exact congrArg _ (linear_children_spec_irrelevant n x y as)
  · rw [if_neg hc, if_neg hc]

theorem addPath_empty_children (n : String) (rs : Option String) (p : List Segment) :
    addPathToTreeWithRawSpecChain (TreeNode.node n rs []) p = linear n rs p := by
  induction p generalizing n rs with
  | nil => rfl
  | cons s rest ih =>
    have hf : findFirst (TreeNode.node n rs []).children s.name = none := rfl
    rw [addPath_cons_none hf]
    simp only [TreeNode.children_node, List.nil_append, TreeNode.name_node, TreeNode.rawSpec_node]
    rw [ih]
    rfl

theorem addPath_linear (p : List Segment) (q : List Segment) (n : String) (rs : Option String)
    (h : p.map Segment.name = q.map Segment.name) :
    addPathToTreeWithRawSpecChain (linear n rs p) q = linear n rs (mergeSpecs p q) := by
  induction p generalizing q n rs with
  | nil =>
    have hq : q = [] := by
      cases q with
      | nil => rfl
      | cons b bs => simp at h
    subst hq
    rfl
  | cons a as ih =>
    cases q with
    | nil => simp at h
    | cons b bs =>
      simp only [List.map_cons, List.cons.injEq] at h
      have hf : findFirst (linear n rs (a :: as)).children b.name
          = some (linear a.name a.rawSpec as) := by
        simp only [linear, TreeNode.children_node, findFirst]
        rw [if_pos (by rw [beq_iff_eq, linear_name]; exact h.1)]
      rw [addPath_cons_some hf]
      rw [backfill_linear]
      rw [ih bs a.name (mergedSpec a.rawSpec b.rawSpec) h.2]
      simp only [linear, TreeNode.children_node, replaceFirst, TreeNode.name_node,
        TreeNode.rawSpec_node]
      rw [if_pos (by rw [beq_iff_eq, linear_name]; exact h.1)]

theorem mergeSpecs_get {p q : List Segment} {k : Nat} {a b : Segment}
    (ha : p[k]? = some a) (hb : q[k]? = some b) (ht : jsTruthy a.rawSpec = true) :
    (mergeSpecs p q)[k]? = some a := by
  induction p generalizing q k with
  | nil => simp at ha
  | cons x xs ih =>
    cases q with
    | nil => simp at hb
    | cons y ys =>
      cases k with
      | zero =>
        simp only [List.getElem?_cons_zero, Option.some.injEq] at ha hb
        subst ha
        subst hb
        simp only [mergeSpecs, List.getElem?_cons_zero, Option.some.injEq]
        have hm : mergedSpec x.rawSpec y.rawSpec = x.rawSpec := by
          simp [mergedSpec, ht]
        rw [hm]
      | succ k2 =>
        simp only [List.getElem?_cons_succ] at ha hb
        simp only [mergeSpecs, List.getElem?_cons_succ]
        exact ih ha hb

/-- Claim C3: When a chain segment reaches an existing child, that child is
kept (same name, no new sibling) and its stored specifier is replaced only
when it is absent (falsy) and the incoming one present (first-non-absent
wins); consequently, unifying two chains with identical identity sequences
gives the linear tree whose specifier at each position is the first chain's
whenever that one is present — never the second chain's. -/
theorem C3_first_non_absent_wins :
    (∀ (t : TreeNode) (seg : Segment) (rest : List Segment) (c : TreeNode),
      findFirst t.children seg.name = some c →
      (addPathToTreeWithRawSpecChain t (seg :: rest)).children.length = t.children.length ∧
      ∃ c2, findFirst (addPathToTreeWithRawSpecChain t (seg :: rest)).children seg.name = some c2
        ∧ c2.name = c.name
        ∧ c2.rawSpec =
            (if !jsTruthy c.rawSpec && jsTruthy seg.rawSpec then seg.rawSpec else c.rawSpec)) ∧
    (∀ (r : Segment) (p2 q2 : List Segment) (k : Nat) (a b : Segment),
      p2.map Segment.name = q2.map Segment.name →
      p2[k]? = some a → q2[k]? = some b → jsTruthy a.rawSpec = true →
      buildTreeFromPathsWithRawSpecChain [r :: p2, r :: q2] =
          Except.ok (linear r.name none (mergeSpecs p2 q2)) ∧
      (mergeSpecs p2 q2)[k]? = some a) := by
  constructor
  · intro t seg rest c hf
    rw [addPath_cons_some hf]
    constructor
    · simp only [TreeNode.children_node]
      exact replaceFirst_length _ _ _
    · refine ⟨addPathToTreeWithRawSpecChain (backfill c seg.rawSpec) rest, ?_, ?_, ?_⟩
      · simp only [TreeNode.children_node]
        apply findFirst_replaceFirst_self hf
        rw [name_addPath, name_backfill]
        exact findFirst_name hf
      · rw [name_addPath, name_backfill]
      · rw [rawSpec_addPath, rawSpec_backfill]
  · intro r p2 q2 k a b hnames ha hb htruthy
    have hlen1 : (r :: p2).length > 1 := by
      cases p2 with
      | nil => simp at ha
      | cons u us => simp
    have hlen2 : (r :: q2).length > 1 := by
      cases q2 with
      | nil => simp at hb
      | cons u us => simp
    constructor
    · have hshow : buildTreeFromPathsWithRawSpecChain [r :: p2, r :: q2]
          = Except.ok (List.foldl foldStep (TreeNode.node r.name none [])
              [r :: p2, r :: q2]) := rfl
      rw [hshow]
      congr 1
      simp only [List.foldl_cons, List.foldl_nil]
      have hstep1 : foldStep (TreeNode.node r.name none []) (r :: p2)
          = addPathToTreeWithRawSpecChain (TreeNode.node r.name none []) p2 := by
        simp only [foldStep]
        rw [if_pos hlen1]
        rfl
      rw [hstep1, addPath_empty_children]
      have hstep2 : foldStep (linear r.name none p2) (r :: q2)
          = addPathToTreeWithRawSpecChain (linear r.name none p2) q2 := by
        simp only [foldStep]
        rw [if_pos hlen2]
        rfl
      rw [hstep2]
      exact addPath_linear p2 q2 r.name none hnames
    · exact mergeSpecs_get ha hb htruthy

/-- Witness for C3 at concrete inputs: an existing child with an absent
specifier is backfilled (part one), and for the chains `a@1 > b@2 (^1)` and
`a@1 > b@2 (^2)` the unified node keeps `^1`, the first chain's specifier
(part two). -/
theorem C3_first_non_absent_wins_witness :
    ((addPathToTreeWithRawSpecChain
        (TreeNode.node "root" none [TreeNode.node "dep@1" none []])
        [⟨"dep@1", some "^1"⟩]).children.length
      = (TreeNode.node "root" none [TreeNode.node "dep@1" none []]).children.length ∧
     ∃ c2, findFirst (addPathToTreeWithRawSpecChain
          (TreeNode.node "root" none [TreeNode.node "dep@1" none []])
          [⟨"dep@1", some "^1"⟩]).children "dep@1" = some c2
        ∧ c2.name = "dep@1"
        ∧ c2.rawSpec =
            (if !jsTruthy (none : Option String) && jsTruthy (some "^1")
             then some "^1" else none)) ∧
    (buildTreeFromPathsWithRawSpecChain
        [[⟨"a@1", none⟩, ⟨"b@2", some "^1"⟩], [⟨"a@1", none⟩, ⟨"b@2", some "^2"⟩]] =
      Except.ok (linear "a@1" none (mergeSpecs [⟨"b@2", some "^1"⟩] [⟨"b@2", some "^2"⟩])) ∧
      (mergeSpecs [⟨"b@2", some "^1"⟩] [⟨"b@2", some "^2"⟩])[0]? = some ⟨"b@2", some "^1"⟩) :=
  ⟨C3_first_non_absent_wins.1 (TreeNode.node "root" none [TreeNode.node "dep@1" none []])
      ⟨"dep@1", some "^1"⟩ [] (TreeNode.node "dep@1" none []) (by decide),
   C3_first_non_absent_wins.2 ⟨"a@1", none⟩ [⟨"b@2", some "^1"⟩] [⟨"b@2", some "^2"⟩] 0
      ⟨"b@2", some "^1"⟩ ⟨"b@2", some "^2"⟩ rfl rfl rfl (by decide)⟩

/-! ## C9: the renderer produces one line per node, children in insertion order -/

/-- Display form of a non-root line: `<identity> (<originalSpecifier>)` when
the specifier is present (truthy), bare `<identity>` otherwise. -/
def displayName (c : TreeNode) : String :=
  if jsTruthy c.rawSpec then c.name ++ " (" ++ c.rawSpec.getD "" ++ ")" else c.name

/-- Indentation of a non-root line at child depth `d` (`d = 0` for children
of the root): three spaces per extra level. -/
def indentOf : Nat → String
  | 0 => ""
  | d + 1 => indentOf d ++ "   "

mutual

/-- Spec-side rendering, prefix-parameterized: the flattened list of
descendant lines of a node, children in stored (insertion) order. -/
def flatNode : TreeNode → String → List String
  | .node _ _ cs, pfx => flatList cs pfx

def flatList : List TreeNode → String → List String
  | [], _ => []
  | c :: rest, pfx =>
    (pfx ++ " - " ++ displayName c) :: (flatNode c (pfx ++ "   ") ++ flatList rest pfx)

end

mutual

/-- Spec-side rendering by depth: one line per descendant, indented by its
depth, children visited in insertion order. -/
def specLinesNode : TreeNode → Nat → List String
  | .node _ _ cs, d => specLinesList cs d

def specLinesList : List TreeNode → Nat → List String
  | [], _ => []
  | c :: rest, d =>
    (indentOf d ++ " - " ++ displayName c) :: (specLinesNode c (d + 1) ++ specLinesList rest d)

end

/-- The claim-side rendering of a whole tree: the root identity line, then
one line per descendant indented by depth. -/
def renderLines (t : TreeNode) : List String :=
  t.name :: specLinesNode t 0

theorem joinLines_cons_ne {A : List String} (x : String) (h : A ≠ []) :
    joinLines (x :: A) = x ++ "\n" ++ joinLines A := by
  cases A with
  | nil => exact absurd rfl h
  | cons y rest => rfl

theorem joinLines_ne_empty {x : String} (hx : 0 < x.length) (A : List String) :
    joinLines (x :: A) ≠ "" := by
  cases A with
  | nil =>
    intro h
    have hl := congrArg String.length h
    have h2 : ("" : String).length = 0 := rfl
    rw [h2] at hl
    have : joinLines [x] = x := rfl
    rw [this] at hl
    omega
  | cons y rest =>
    intro h
    have hl := congrArg String.length h
    rw [joinLines_cons_ne x (by simp)] at hl
    rw [String.length_append, String.length_append] at hl
    have h1 : ("\n" : String).length = 1 := rfl
    have h2 : ("" : String).length = 0 := rfl
    rw [h1, h2] at hl
    omega

theorem joinLines_flatten {A : List String} (B : List String) (h : A ≠ []) :
    joinLines (joinLines A :: B) = joinLines (A ++ B) := by
  induction A with
  | nil => exact absurd rfl h
  | cons a A2 ih =>
    cases A2 with
    | nil => rfl
    | cons a2 A3 =>
      cases B with
      | nil =>
        rw [List.append_nil]
        rfl
      | cons b B2 =>
        have e1 : joinLines (a :: a2 :: A3) = a ++ "\n" ++ joinLines (a2 :: A3) := rfl
        rw [e1]
        rw [joinLines_cons_ne (a ++ "\n" ++ joinLines (a2 :: A3)) (by simp)]
        rw [List.cons_append]
        rw [joinLines_cons_ne a (by simp)]
        rw [← ih (by simp)]
        rw [joinLines_cons_ne (joinLines (a2 :: A3)) (by simp)]
        simp [String.append_assoc]

theorem joinLines_cons_congr {A B : List String} (x : String)
    (hj : joinLines A = joinLines B) (he : A = [] ↔ B = []) :
    joinLines (x :: A) = joinLines (x :: B) := by
  cases A with
  | nil =>
    have hb : B = [] := he.mp rfl
    subst hb
    rfl
  | cons a A2 =>
    cases B with
    | nil =>
      have hcon : (a :: A2 : List String) = [] := he.mpr rfl
      cases hcon
    | cons b B2 =>
      rw [joinLines_cons_ne x (by simp), joinLines_cons_ne x (by simp), hj]

theorem joinLines_append_congr (X : List String) {A B : List String}
    (hj : joinLines A = joinLines B) (he : A = [] ↔ B = []) :
    joinLines (X ++ A) = joinLines (X ++ B) := by
  induction X with
  | nil => exact hj
  | cons x X2 ih =>
    simp only [List.cons_append]
    apply joinLines_cons_congr x ih
    simp only [List.append_eq_nil]
    rw [he]

theorem flatList_eq_nil_iff (cs : List TreeNode) (pfx : String) :
    flatList cs pfx = [] ↔ cs = [] := by
  cases cs <;> simp [flatList]

theorem line_length_pos (pfx d : String) : 0 < (pfx ++ " - " ++ d).length := by
  rw [String.length_append, String.length_append]
  have h : (" - " : String).length = 3 := rfl
  omega

mutual

theorem formatTreeNode_eq_flat : ∀ (t : TreeNode) (pfx : String),
    formatTreeNode t pfx false = joinLines (flatNode t pfx)
  | .node n rs cs, pfx => by
    simp only [formatTreeNode, flatNode, Bool.false_eq_true, if_false, List.nil_append]
    exact (formatChildren_eq_flat cs pfx).1

theorem formatChildren_eq_flat : ∀ (cs : List TreeNode) (pfx : String),
    joinLines (formatChildren cs pfx false) = joinLines (flatList cs pfx)
    ∧ (formatChildren cs pfx false = [] ↔ cs = [])
  | [], pfx => by simp [formatChildren, flatList]
  | c :: rest, pfx => by
    constructor
    · cases c with
      | node cn crs ccs =>
        cases ccs with
        | nil =>
          have hfc : formatChildren (TreeNode.node cn crs [] :: rest) pfx false
              = (pfx ++ " - " ++ displayName (TreeNode.node cn crs []))
                :: formatChildren rest pfx false := by
            simp [formatChildren, displayName]
          have hfl : flatList (TreeNode.node cn crs [] :: rest) pfx
              = (pfx ++ " - " ++ displayName (TreeNode.node cn crs []))
                :: flatList rest pfx := by
            simp [flatList, flatNode]
          rw [hfc, hfl]
          apply joinLines_cons_congr
          · exact (formatChildren_eq_flat rest pfx).1
          · rw [(formatChildren_eq_flat rest pfx).2, flatList_eq_nil_iff]
        | cons cc ccs2 =>
          have hout : formatTreeNode (TreeNode.node cn crs (cc :: ccs2)) (pfx ++ "   ") false
              = joinLines (flatList (cc :: ccs2) (pfx ++ "   ")) := by
            rw [formatTreeNode_eq_flat (TreeNode.node cn crs (cc :: ccs2)) (pfx ++ "   ")]
            rfl
          have hfl2 : flatList (cc :: ccs2) (pfx ++ "   ")
              = ((pfx ++ "   ") ++ " - " ++ displayName cc)
                :: (flatNode cc ((pfx ++ "   ") ++ "   ") ++ flatList ccs2 (pfx ++ "   ")) := rfl
          have hne : formatTreeNode (TreeNode.node cn crs (cc :: ccs2)) (pfx ++ "   ") false
              ≠ "" := by
            rw [hout, hfl2]
            exact joinLines_ne_empty (line_length_pos _ _) _
          have hbeq : (formatTreeNode (TreeNode.node cn crs (cc :: ccs2)) (pfx ++ "   ") false
              == "") = false := beq_eq_false_iff_ne.mpr hne
          have hfc : formatChildren (TreeNode.node cn crs (cc :: ccs2) :: rest) pfx false
              = (pfx ++ " - " ++ displayName (TreeNode.node cn crs (cc :: ccs2)))
                :: (formatTreeNode (TreeNode.node cn crs (cc :: ccs2)) (pfx ++ "   ") false
                  :: formatChildren rest pfx false) := by
            simp [formatChildren, displayName, hbeq]
          have hfl : flatList (TreeNode.node cn crs (cc :: ccs2) :: rest) pfx
              = (pfx ++ " - " ++ displayName (TreeNode.node cn crs (cc :: ccs2)))
                :: (flatNode (TreeNode.node cn crs (cc :: ccs2)) (pfx ++ "   ")
                  ++ flatList rest pfx) := rfl
          rw [hfc, hfl]
          apply joinLines_cons_congr
          · rw [hout]
            have hnode : flatNode (TreeNode.node cn crs (cc :: ccs2)) (pfx ++ "   ")
                = flatList (cc :: ccs2) (pfx ++ "   ") := rfl
            rw [hnode]
            rw [joinLines_flatten (formatChildren rest pfx false)
                (by rw [hfl2]; simp)]
            exact joinLines_append_congr _ (formatChildren_eq_flat rest pfx).1
              (by rw [(formatChildren_eq_flat rest pfx).2, flatList_eq_nil_iff])
          · constructor
            · intro hcon
              cases hcon
            · intro hcon
              rw [List.append_eq_nil] at hcon
              have := hcon.1
              rw [show flatNode (TreeNode.node cn crs (cc :: ccs2)) (pfx ++ "   ")
                  = flatList (cc :: ccs2) (pfx ++ "   ") from rfl, hfl2] at this
              cases this
    · simp [formatChildren]

end

mutual

theorem specLinesNode_eq_flat : ∀ (t : TreeNode) (d : Nat),
    specLinesNode t d = flatNode t (indentOf d)
  | .node n rs cs, d => by
    simp only [specLinesNode, flatNode]
    exact specLinesList_eq_flat cs d

theorem specLinesList_eq_flat : ∀ (cs : List TreeNode) (d : Nat),
    specLinesList cs d = flatList cs (indentOf d)
  | [], d => rfl
  | c :: rest, d => by
    simp only [specLinesList, flatList]
    rw [specLinesNode_eq_flat c (d + 1), specLinesList_eq_flat rest d]
    rfl

end

theorem formatChildren_true_false (cs : List TreeNode) :
    formatChildren cs "" true = formatChildren cs "" false := by
  induction cs with
  | nil => rfl
  | cons c rest ih =>
    simp only [formatChildren, if_true, if_false]
    rw [ih]
    have h1 : ("" ++ " - " : String) = " - " := rfl
    have h2 : ("" ++ "   " : String) = "   " := rfl
    rw [h1, h2]
    simp

/-- Claim C9: Rendering a unified tree produces the root identity line, then
exactly one line per descendant indented by its depth, each non-root line
being `<identity> (<originalSpecifier>)` when the node's specifier is
present and `<identity>` when absent, with the children of every node
emitted in stored (insertion) order, not sorted. -/
theorem C9_renderer_one_line_per_node (t : TreeNode) :
    formatTreeNode t "" true = joinLines (renderLines t) := by
  cases t with
  | node n rs cs =>
    have hub : formatTreeNode (TreeNode.node n rs cs) "" true
        = joinLines (n :: formatChildren cs "" true) := rfl
    rw [hub, formatChildren_true_false]
    have hrl : renderLines (TreeNode.node n rs cs) = n :: specLinesList cs 0 := rfl
    rw [hrl]
    apply joinLines_cons_congr
    · rw [specLinesList_eq_flat cs 0]
      exact (formatChildren_eq_flat cs "").1
    · rw [(formatChildren_eq_flat cs "").2, specLinesList_eq_flat cs 0, flatList_eq_nil_iff]

/-- Claim C10: The public rendering entry point never raises: it returns `ok`
for every input, the empty string for the empty path list (instead of
propagating the unifier's empty-input failure), appending a chain of length
`≤ 1` to a non-empty list leaves the built tree unchanged (length-1 chains
are skipped), and a single root-only chain renders as just the root line. -/
theorem C10_format_entry_point_total (ps : List (List Segment)) (p : List Segment)
    (s : Segment) :
    (∃ out, formatAsUnifiedTreeFromPathsWithRawSpecs ps = Except.ok out) ∧
    formatAsUnifiedTreeFromPathsWithRawSpecs [] = Except.ok "" ∧
    (ps ≠ [] → p.length ≤ 1 →
      buildTreeFromPathsWithRawSpecChain (ps ++ [p]) = buildTreeFromPathsWithRawSpecChain ps) ∧
    formatAsUnifiedTreeFromPathsWithRawSpecs [[s]] = Except.ok s.name := by
  refine ⟨?_, rfl, ?_, ?_⟩
  · cases ps with
    | nil => exact ⟨"", rfl⟩
    | cons a b =>
      refine ⟨formatTreeNode (List.foldl foldStep (TreeNode.node
        (match a.head? with
         | some seg => seg.name
         | none => "") none []) (a :: b)) "" true, ?_⟩
      rfl
  · intro hne hlen
    obtain ⟨first, rest, rfl⟩ : ∃ f r2, ps = f :: r2 := by
      cases ps with
      | nil => exact absurd rfl hne
      | cons x y => exact ⟨x, y, rfl⟩
    rw [List.cons_append, build_cons first (rest ++ [p]), build_cons first rest]
    have hfold : ∀ root : TreeNode,
        List.foldl foldStep root (first :: (rest ++ [p])) =
        foldStep (List.foldl foldStep root (first :: rest)) p := by
      intro root
      rw [← List.cons_append, List.foldl_append]
      simp
    rw [hfold]
    congr 1
    simp only [foldStep]
    rw [if_neg (by omega)]
  · rfl

/-- Witness for C10 at concrete inputs. -/
theorem C10_format_entry_point_total_witness :
    (∃ out, formatAsUnifiedTreeFromPathsWithRawSpecs
        [[⟨"a@1", none⟩, ⟨"b@2", some "^2"⟩]] = Except.ok out) ∧
    formatAsUnifiedTreeFromPathsWithRawSpecs [] = Except.ok "" ∧
    buildTreeFromPathsWithRawSpecChain
        ([[⟨"a@1", none⟩, ⟨"b@2", some "^2"⟩]] ++ [[⟨"a@1", none⟩]]) =
      buildTreeFromPathsWithRawSpecChain [[⟨"a@1", none⟩, ⟨"b@2", some "^2"⟩]] ∧
    formatAsUnifiedTreeFromPathsWithRawSpecs [[⟨"a@1", none⟩]] = Except.ok "a@1" := by
  obtain ⟨h1, h2, h3, h4⟩ := C10_format_entry_point_total
    [[⟨"a@1", none⟩, ⟨"b@2", some "^2"⟩]] [⟨"a@1", none⟩] ⟨"a@1", none⟩
  exact ⟨h1, h2, h3 (by simp) (by simp), h4⟩

/-! ## C8: the unused-override detector -/

/-- The `UnusedOverride` record from src/index.ts. -/
structure UnusedOverride where
  name : String
  version : String
deriving DecidableEq

/-- The `PackageOverride` record as far as the core logic reads it (the legacy
`dependencyPaths` string list is a parallel rendering of
`pathsWithRawSpecs` and is not modelled). -/
structure PackageOverride where
  name : String
  version : String
  pathsWithRawSpecs : List (List Segment)
  aliasedFrom : Option String := none

/-- The pure core of `findUnusedOverrides` (src/index.ts lines 86–116): the
entries of the merged overrides object (`Object.entries`, declaration
order, unique keys) are filtered against the set of used override names;
every surviving entry yields an `UnusedOverride` carrying the declared
version string verbatim. -/
def findUnusedOverrides (combinedOverrides : List (String × String))
    (usedOverrides : List PackageOverride) : List UnusedOverride :=
  if combinedOverrides.length == 0 then []
  else
    let usedOverrideNames := usedOverrides.map (fun o => o.name)
    (combinedOverrides.filter (fun e => !(usedOverrideNames.contains e.1))).map
      (fun e => ⟨e.1, e.2⟩)

/-- Claim C8: `findUnusedOverrides` returns exactly the declared entries whose
name is not among the found usages' names — one per such entry, carrying
the declared version verbatim, in declaration order (a sublist of the
declared entries) — and the empty list when every declared name is found. -/
theorem C8_unused_is_set_difference (declared : List (String × String))
    (found : List PackageOverride) :
    (∀ n v, (⟨n, v⟩ : UnusedOverride) ∈ findUnusedOverrides declared found ↔
      ((n, v) ∈ declared ∧ n ∉ found.map (fun o => o.name))) ∧
    ((declared.map Prod.fst).Nodup →
      ((findUnusedOverrides declared found).map (fun u => u.name)).Nodup) ∧
    List.Sublist ((findUnusedOverrides declared found).map (fun u => (u.name, u.version)))
      declared ∧
    ((∀ e ∈ declared, e.1 ∈ found.map (fun o => o.name)) →
      findUnusedOverrides declared found = []) := by
  have hsplit : findUnusedOverrides declared found
      = (declared.filter
          (fun e => !((found.map (fun o => o.name)).contains e.1))).map
        (fun e => (⟨e.1, e.2⟩ : UnusedOverride)) := by
    simp only [findUnusedOverrides]
    split
    · rename_i hlen
      simp only [beq_iff_eq, List.length_eq_zero] at hlen
      subst hlen
      rfl
    · rfl
  refine ⟨?_, ?_, ?_, ?_⟩
  · intro n v
    rw [hsplit]
    simp only [List.mem_map, List.mem_filter, UnusedOverride.mk.injEq]
    constructor
    · rintro ⟨e, ⟨he, hc⟩, hn, hv⟩
      subst hn
      subst hv
      refine ⟨by simpa using he, ?_⟩
      simpa using hc
    · rintro ⟨hmem, hnot⟩
      exact ⟨(n, v), ⟨hmem, by simpa using hnot⟩, rfl, rfl⟩
  · intro hnd
    rw [hsplit]
    have h1 : ((declared.filter
          (fun e => !((found.map (fun o => o.name)).contains e.1))).map
        (fun e => (⟨e.1, e.2⟩ : UnusedOverride))).map (fun u => u.name)
        = (declared.filter
          (fun e => !((found.map (fun o => o.name)).contains e.1))).map Prod.fst := by
      rw [List.map_map]
      rfl
    rw [h1]
    exact hnd.sublist (List.Sublist.map Prod.fst (List.filter_sublist declared))
  · rw [hsplit]
    have h1 : ((declared.filter
          (fun e => !((found.map (fun o => o.name)).contains e.1))).map
        (fun e => (⟨e.1, e.2⟩ : UnusedOverride))).map (fun u => (u.name, u.version))
        = declared.filter (fun e => !((found.map (fun o => o.name)).contains e.1)) := by
      rw [List.map_map]
      have : ((fun (u : UnusedOverride) => (u.name, u.version)) ∘
          (fun (e : String × String) => (⟨e.1, e.2⟩ : UnusedOverride))) = id := by
        funext e
        rfl
      rw [this, List.map_id]
    rw [h1]
    exact List.filter_sublist declared
  · intro hall
    rw [hsplit]
    have : declared.filter
        (fun e => !((found.map (fun o => o.name)).contains e.1)) = [] := by
      rw [List.filter_eq_nil_iff]
      intro e he
      simpa using hall e he
    rw [this]
    rfl

/-- Witness for C8 at a concrete input: declared `send`, `trim`; only `send`
found; exactly `trim@0.0.3` is unused. -/
theorem C8_unused_is_set_difference_witness :
    ((⟨"trim", "0.0.3"⟩ : UnusedOverride) ∈ findUnusedOverrides
        [("send", "0.19.1"), ("trim", "0.0.3")]
        [⟨"send", "0.19.1", [], none⟩] ↔
      (("trim", "0.0.3") ∈ [("send", "0.19.1"), ("trim", "0.0.3")] ∧
        "trim" ∉ [(⟨"send", "0.19.1", [], none⟩ : PackageOverride)].map (fun o => o.name))) ∧
    ((findUnusedOverrides [("send", "0.19.1"), ("trim", "0.0.3")]
        [⟨"send", "0.19.1", [], none⟩]).map (fun u => u.name)).Nodup ∧
    findUnusedOverrides [("send", "0.19.1")] [⟨"send", "0.19.1", [], none⟩] = [] := by
  obtain ⟨h1, h2, h3, h4⟩ := C8_unused_is_set_difference
    [("send", "0.19.1"), ("trim", "0.0.3")] [⟨"send", "0.19.1", [], none⟩]
  obtain ⟨g1, g2, g3, g4⟩ := C8_unused_is_set_difference
    [("send", "0.19.1")] [⟨"send", "0.19.1", [], none⟩]
  refine ⟨h1 "trim" "0.0.3", h2 (by decide), g4 ?_⟩
  intro e he
  simp only [List.mem_singleton] at he
  subst he
  simp

/-! ## C6: the alias resolver of analyzeNpmOverrides -/

/-- JavaScript `String.prototype.lastIndexOf('@')` over the character list:
the index of the last `'@'`, `-1` when there is none. -/
def lastIndexOfAt : List Char → Int
  | [] => -1
  | c :: rest =>
    let r := lastIndexOfAt rest
    if r ≥ 0 then r + 1
    else if c == '@' then 0 else -1

/-- The alias branch of `analyzeNpmOverrides`' loop (src/npm.ts lines
21–35): for an override value of the alias form `npm:<rest>`, the actual
package name — `rest` truncated before its last `@` when that index is
`> 0`, the whole `rest` otherwise; `none` for a non-alias value. -/
def resolveOverrideEntry (overrideValue : String) : Option String :=
  if overrideValue.data.take 4 = ['n', 'p', 'm', ':'] then
    let npmPart := overrideValue.data.drop 4
    let atIndex := lastIndexOfAt npmPart
    some (String.mk (if atIndex > 0 then npmPart.take atIndex.toNat else npmPart))
  else
    none

/-- JavaScript `Map.set`: overwrite in place when the key exists, append
otherwise. -/
def mapSet (m : List (String × String)) (k v : String) : List (String × String) :=
  match m with
  | [] => [(k, v)]
  | e :: rest => if e.1 == k then (k, v) :: rest else e :: mapSet rest k v

/-- JavaScript `Map.get`. -/
def mapGet (m : List (String × String)) (k : String) : Option String :=
  match m with
  | [] => none
  | e :: rest => if e.1 == k then some e.2 else mapGet rest k

/-- One iteration of the alias-resolution loop: an alias value pushes the
actual name onto the query list and binds declared name → actual name in
the alias map; a plain value pushes the declared name and leaves the map
alone. -/
def aliasStep (acc : List String × List (String × String)) (entry : String × String) :
    List String × List (String × String) :=
  match resolveOverrideEntry entry.2 with
  | some actualPackageName =>
      (acc.1 ++ [actualPackageName], mapSet acc.2 entry.1 actualPackageName)
  | none => (acc.1 ++ [entry.1], acc.2)

/-- The alias-resolution part of `analyzeNpmOverrides`: walk the override
declarations in order, returning `(explainPackageNames, aliasMap)`. -/
def analyzeNpmOverridesAliases (overrides : List (String × String)) :
    List String × List (String × String) :=
  overrides.foldl aliasStep ([], [])

theorem lastIndexOfAt_of_not_mem {cs : List Char} (h : '@' ∉ cs) :
    lastIndexOfAt cs = -1 := by
  induction cs with
  | nil => rfl
  | cons c rest ih =>
    simp only [List.mem_cons, not_or] at h
    simp only [lastIndexOfAt]
    rw [ih h.2]
    have hc : (c == '@') = false := by
      rw [beq_eq_false_iff_ne]
      exact fun hcon => h.1 hcon.symm
    simp [hc]

theorem lastIndexOfAt_split {pre suf : List Char} (h : '@' ∉ suf) :
    lastIndexOfAt (pre ++ '@' :: suf) = (pre.length : Int) := by
  induction pre with
  | nil =>
    simp only [List.nil_append, lastIndexOfAt]
    rw [lastIndexOfAt_of_not_mem h]
    simp
  | cons x pre2 ih =>
    simp only [List.cons_append, lastIndexOfAt, List.append_eq]
    rw [ih]
    rw [if_pos (by omega : ((pre2.length : Int)) ≥ 0)]
    simp only [List.length_cons]
    push_cast
    omega

theorem foldl_aliasStep_names_mono (os : List (String × String))
    (acc : List String × List (String × String)) {x : String} (hx : x ∈ acc.1) :
    x ∈ (List.foldl aliasStep acc os).1 := by
  induction os generalizing acc with
  | nil => exact hx
  | cons e rest ih =>
    simp only [List.foldl_cons]
    apply ih
    simp only [aliasStep]
    cases resolveOverrideEntry e.2 <;> exact List.mem_append_left _ hx

theorem foldl_aliasStep_mem_names {os : List (String × String)} {n v actual : String}
    (hmem : (n, v) ∈ os) (hres : resolveOverrideEntry v = some actual)
    (acc : List String × List (String × String)) :
    actual ∈ (List.foldl aliasStep acc os).1 := by
  induction os generalizing acc with
  | nil => simp at hmem
  | cons e rest ih =>
    simp only [List.foldl_cons]
    rcases List.mem_cons.mp hmem with heq | hmem2
    · apply foldl_aliasStep_names_mono
      rw [← heq] at *
      simp only [aliasStep, hres]
      exact List.mem_append_right _ (by simp)
    · exact ih hmem2 _

theorem mapGet_mapSet_self (m : List (String × String)) (k x : String) :
    mapGet (mapSet m k x) k = some x := by
  induction m with
  | nil => simp [mapSet, mapGet]
  | cons e rest ih =>
    simp only [mapSet]
    by_cases hd : (e.1 == k) = true
    · rw [if_pos hd]
      simp [mapGet]
    · rw [if_neg hd]
      simp only [mapGet]
      rw [if_neg hd]
      exact ih

theorem mapGet_mapSet_ne {k n : String} (m : List (String × String)) (x : String)
    (hne : k ≠ n) : mapGet (mapSet m k x) n = mapGet m n := by
  induction m with
  | nil =>
    simp [mapSet, mapGet, beq_eq_false_iff_ne.mpr hne]
  | cons e rest ih =>
    simp only [mapSet]
    by_cases hd : (e.1 == k) = true
    · rw [if_pos hd]
      have he1 : e.1 ≠ n := by
        rw [eq_of_beq hd]
        exact hne
      simp [mapGet, beq_eq_false_iff_ne.mpr hne, beq_eq_false_iff_ne.mpr he1]
    · rw [if_neg hd]
      simp only [mapGet]
      by_cases hd2 : (e.1 == n) = true
      · rw [if_pos hd2, if_pos hd2]
      · rw [if_neg hd2, if_neg hd2]
        exact ih

theorem foldl_aliasStep_map_stable {os : List (String × String)} {n : String}
    (hnot : n ∉ os.map Prod.fst) (acc : List String × List (String × String)) :
    mapGet (List.foldl aliasStep acc os).2 n = mapGet acc.2 n := by
  induction os generalizing acc with
  | nil => rfl
  | cons e rest ih =>
    simp only [List.map_cons, List.mem_cons, not_or] at hnot
    simp only [List.foldl_cons]
    rw [ih hnot.2]
    simp only [aliasStep]
    cases resolveOverrideEntry e.2 with
    | none => rfl
    | some act =>
      simp only
      exact mapGet_mapSet_ne acc.2 act (fun h => hnot.1 h.symm)

theorem foldl_aliasStep_map_binding {os : List (String × String)} {n v actual : String}
    (hmem : (n, v) ∈ os) (hnd : (os.map Prod.fst).Nodup)
    (hres : resolveOverrideEntry v = some actual)
    (acc : List String × List (String × String)) :
    mapGet (List.foldl aliasStep acc os).2 n = some actual := by
  induction os generalizing acc with
  | nil => simp at hmem
  | cons e rest ih =>
    simp only [List.map_cons, List.nodup_cons] at hnd
    simp only [List.foldl_cons]
    rcases List.mem_cons.mp hmem with heq | hmem2
    · rw [← heq] at hnd ⊢
      rw [foldl_aliasStep_map_stable hnd.1]
      simp only [aliasStep, hres]
      exact mapGet_mapSet_self acc.2 n actual
    · exact ih hmem2 hnd.2 _

theorem resolveOverrideEntry_npm {v : String} {w : List Char}
    (hdata : v.data = 'n' :: 'p' :: 'm' :: ':' :: w) :
    resolveOverrideEntry v =
      some (String.mk (if lastIndexOfAt w > 0 then w.take (lastIndexOfAt w).toNat else w)) := by
  simp only [resolveOverrideEntry, hdata]
  rw [if_pos (by simp)]
  simp

/-- Claim C6: For every override value of the alias form `npm:<rest>` the
resolver strips the marker and takes as actual name the part of `<rest>`
before its last `@` when that `@` sits at index `> 0`, and the whole
`<rest>` otherwise (so `npm:@scope/pkg` resolves to the full scoped name);
every alias declaration contributes its actual name to the query-name list
and binds declared → actual in the alias map; in particular
`{"rollup": "npm:@rollup/wasm-node@^4.22.5"}` queries `@rollup/wasm-node`
and maps `rollup` to it. -/
theorem C6_alias_resolution (overrides : List (String × String)) :
    (∀ (v : String) (w pre suf : List Char),
      v.data = 'n' :: 'p' :: 'm' :: ':' :: w → w = pre ++ '@' :: suf → '@' ∉ suf →
      pre ≠ [] → resolveOverrideEntry v = some (String.mk pre)) ∧
    (∀ (v : String) (w : List Char),
      v.data = 'n' :: 'p' :: 'm' :: ':' :: w → '@' ∉ w →
      resolveOverrideEntry v = some (String.mk w)) ∧
    (∀ (v : String) (suf : List Char),
      v.data = 'n' :: 'p' :: 'm' :: ':' :: '@' :: suf → '@' ∉ suf →
      resolveOverrideEntry v = some (String.mk ('@' :: suf))) ∧
    (∀ (n v actual : String), (n, v) ∈ overrides →
      resolveOverrideEntry v = some actual →
      actual ∈ (analyzeNpmOverridesAliases overrides).1 ∧
      ((overrides.map Prod.fst).Nodup →
        mapGet (analyzeNpmOverridesAliases overrides).2 n = some actual)) ∧
    resolveOverrideEntry "npm:@scope/pkg" = some "@scope/pkg" ∧
    analyzeNpmOverridesAliases [("rollup", "npm:@rollup/wasm-node@^4.22.5")] =
      (["@rollup/wasm-node"], [("rollup", "@rollup/wasm-node")]) := by
  refine ⟨?_, ?_, ?_, ?_, by decide, by decide⟩
  · intro v w pre suf hdata hw hsuf hpre
    rw [resolveOverrideEntry_npm hdata]
    subst hw
    rw [lastIndexOfAt_split hsuf]
    have hlen : 0 < pre.length := List.length_pos.mpr hpre
    rw [if_pos (by exact_mod_cast hlen)]
    congr 1
    have htn : ((pre.length : Int)).toNat = pre.length := Int.toNat_natCast pre.length
    rw [htn]
    exact congrArg String.mk (List.take_left pre ('@' :: suf))
  · intro v w hdata hnot
    rw [resolveOverrideEntry_npm hdata]
    rw [lastIndexOfAt_of_not_mem hnot]
    rfl
  · intro v suf hdata hsuf
    rw [resolveOverrideEntry_npm hdata]
    have h0 : lastIndexOfAt ('@' :: suf) = ((([] : List Char).length : Int)) :=
      @lastIndexOfAt_split [] suf hsuf
    rw [h0]
    rfl
  · intro n v actual hmem hres
    exact ⟨foldl_aliasStep_mem_names hmem hres _,
      fun hnd => foldl_aliasStep_map_binding hmem hnd hres _⟩

/-- Witness for C6 at the rollup declaration: the general truncation rule
applied to `npm:@rollup/wasm-node@^4.22.5`, and the loop's query-name and
alias-map conclusions. -/
theorem C6_alias_resolution_witness :
    resolveOverrideEntry "npm:@rollup/wasm-node@^4.22.5" =
        some (String.mk "@rollup/wasm-node".data) ∧
    "@rollup/wasm-node" ∈
      (analyzeNpmOverridesAliases [("rollup", "npm:@rollup/wasm-node@^4.22.5")]).1 ∧
    mapGet (analyzeNpmOverridesAliases [("rollup", "npm:@rollup/wasm-node@^4.22.5")]).2
        "rollup" = some "@rollup/wasm-node" := by
  have h := C6_alias_resolution [("rollup", "npm:@rollup/wasm-node@^4.22.5")]
  obtain ⟨h1, h2, h3, h4, h5, h6⟩ := h
  have ha := h1 "npm:@rollup/wasm-node@^4.22.5" "@rollup/wasm-node@^4.22.5".data
    "@rollup/wasm-node".data "^4.22.5".data (by decide) (by decide) (by decide) (by decide)
  have hb := h4 "rollup" "npm:@rollup/wasm-node@^4.22.5" "@rollup/wasm-node"
    (by simp) (by decide)
  exact ⟨ha, hb.1, hb.2 (by decide)⟩

/-! ## C7: chain extraction from npm explain output -/

/-- JavaScript `a || b` for `a : string | undefined` and a string default. -/
def jsOrStr (a : Option String) (b : String) : String :=
  match a with
  | some s => if s == "" then b else s
  | none => b

/-- The `NpmExplainDependent` shape from src/npm.ts, restricted to the fields the
path builder reads: `spec`, `rawSpec?` and the optional `from` record with
its `name?`, `version?` and `dependents?`; the metadata fields (`type`,
`overridden`, `location`, `isWorkspace`) are never read by the algorithm. -/
inductive NpmExplainDependent where
  | mk (name : String) (spec : String) (rawSpec : Option String)
      (fromInfo : Option (Option String × Option String × Option (List NpmExplainDependent)))

def NpmExplainDependent.spec : NpmExplainDependent → String
  | .mk _ s _ _ => s

def NpmExplainDependent.rawSpec : NpmExplainDependent → Option String
  | .mk _ _ rs _ => rs

@[simp] theorem NpmExplainDependent.spec_mk (n s rs fi) :
    (NpmExplainDependent.mk n s rs fi).spec = s := rfl

@[simp] theorem NpmExplainDependent.rawSpec_mk (n s rs fi) :
    (NpmExplainDependent.mk n s rs fi).rawSpec = rs := rfl

/-- The `NpmExplainPackage` shape, restricted to the fields `buildAllDependencyPathsWithRawSpecs`
reads. -/
structure NpmExplainPackage where
  name : String
  version : String
  dependents : Option (List NpmExplainDependent)

/-- The segment built for one dependent record (src/npm.ts lines 206–210):
identity `<from.name>@<from.version || 'unknown'>`, specifier
`(rawSpec || spec || '') || undefined`. -/
def mkSegment (fromName : String) (fromVersion : Option String)
    (rawSpec : Option String) (spec : String) : Segment :=
  let packageName := fromName ++ "@" ++ jsOrStr fromVersion "unknown"
  let rawSpecV := jsOrStr rawSpec spec
  ⟨packageName, if rawSpecV == "" then none else some rawSpecV⟩

mutual

/-- The walker `buildDependentPathsWithRawSpecChain` from src/npm.ts lines 203–231:
walk one dependent record; a record with a truthy `from.name` appends its
segment and recurses into its `from.dependents` when non-empty, otherwise
emits the accumulated path; a record without a resolvable parent emits the
accumulated path when non-empty and nothing otherwise. -/
def buildDependentPathsWithRawSpecChain :
    NpmExplainDependent → List Segment → List (List Segment)
  | .mk _ spec rawSpec (some (some fromName, fromVersion, some (d :: ds))), currentPath =>
    if fromName == "" then
      if currentPath.length > 0 then [currentPath] else []
    else
      buildDependentPathsList (d :: ds)
        (currentPath ++ [mkSegment fromName fromVersion rawSpec spec])
  | .mk _ spec rawSpec (some (some fromName, fromVersion, some [])), currentPath =>
    if fromName == "" then
      if currentPath.length > 0 then [currentPath] else []
    else
      [currentPath ++ [mkSegment fromName fromVersion rawSpec spec]]
  | .mk _ spec rawSpec (some (some fromName, fromVersion, none)), currentPath =>
    if fromName == "" then
      if currentPath.length > 0 then [currentPath] else []
    else
      [currentPath ++ [mkSegment fromName fromVersion rawSpec spec]]
  | .mk _ _ _ (some (none, _, _)), currentPath =>
    if currentPath.length > 0 then [currentPath] else []
  | .mk _ _ _ none, currentPath =>
    if currentPath.length > 0 then [currentPath] else []

def buildDependentPathsList :
    List NpmExplainDependent → List Segment → List (List Segment)
  | [], _ => []
  | d :: ds, p =>
    buildDependentPathsWithRawSpecChain d p ++ buildDependentPathsList ds p

end

/-- The builder `buildAllDependencyPathsWithRawSpecs` (src/npm.ts lines 165–195),
restricted to its `pathsWithRawSpecs` output (the parallel
`dependencyPaths` strings are `' > '`-joins of the same segment names). -/
def buildAllDependencyPathsWithRawSpecs (packageInfo : NpmExplainPackage)
    (aliasInfo : Option (String × String)) : List (List Segment) :=
  let rootPackage :=
    match aliasInfo with
    | some (aliasName, actualName) =>
        aliasName ++ ">" ++ actualName ++ "@" ++ packageInfo.version
    | none => packageInfo.name ++ "@" ++ packageInfo.version
  match packageInfo.dependents with
  | none => [[⟨rootPackage, none⟩]]
  | some [] => [[⟨rootPackage, none⟩]]
  | some (d :: ds) =>
    (buildDependentPathsList (d :: ds) []).map (fun pws => ⟨rootPackage, none⟩ :: pws)

mutual

/-- A dependent record together with all records nested below it through
`from.dependents`. -/
def allRecords : NpmExplainDependent → List NpmExplainDependent
  | .mk nm spec rawSpec (some (fn, fv, some ds)) =>
    .mk nm spec rawSpec (some (fn, fv, some ds)) :: allRecordsList ds
  | d => [d]

def allRecordsList : List NpmExplainDependent → List NpmExplainDependent
  | [] => []
  | d :: ds => allRecords d ++ allRecordsList ds

end

/-- Modelled from the spec's words, for comparison: the specifier
preference order for an extracted segment — the record's `rawSpec` field
first, falling back to the `spec` field, else absent (the empty string
counting as absent, as everywhere in this code base). -/
def preferredSpecifier (rawSpec : Option String) (spec : String) : Option String :=
  match rawSpec with
  | some rs => if rs = "" then (if spec = "" then none else some spec) else some rs
  | none => if spec = "" then none else some spec

theorem mkSegment_rawSpec (fn : String) (fv : Option String) (rs : Option String) (sp : String) :
    (mkSegment fn fv rs sp).rawSpec = preferredSpecifier rs sp := by
  simp only [mkSegment, preferredSpecifier, jsOrStr]
  cases rs with
  | none =>
    by_cases hsp : sp = ""
    · simp [hsp]
    · simp [hsp, beq_eq_false_iff_ne.mpr hsp]
  | some s =>
    by_cases hs : s = ""
    · simp only [hs]
      by_cases hsp : sp = ""
      · simp [hsp]
      · simp [hsp, beq_eq_false_iff_ne.mpr hsp]
    · simp [hs, beq_eq_false_iff_ne.mpr hs]

theorem mem_fallback {cp chain : List Segment}
    (h : chain ∈ (if cp.length > 0 then [cp] else ([] : List (List Segment)))) :
    chain = cp := by
  split at h
  · simpa using h
  · simp at h

mutual

theorem buildDependentPaths_spec_source :
    ∀ (d : NpmExplainDependent) (cp chain : List Segment) (seg : Segment),
      chain ∈ buildDependentPathsWithRawSpecChain d cp → seg ∈ chain →
      seg ∈ cp ∨ ∃ r ∈ allRecords d, seg.rawSpec = preferredSpecifier r.rawSpec r.spec
  | .mk nm spec rawSpec (some (some fromName, fromVersion, some (d1 :: ds1))), cp, chain, seg => by
    intro hchain hseg
    simp only [buildDependentPathsWithRawSpecChain] at hchain
    by_cases hfn : (fromName == "") = true
    · rw [if_pos hfn] at hchain
      rw [mem_fallback hchain] at hseg
      exact Or.inl hseg
    · rw [if_neg hfn] at hchain
      rcases buildDependentPathsList_spec_source (d1 :: ds1)
          (cp ++ [mkSegment fromName fromVersion rawSpec spec]) chain seg hchain hseg with
        hmem | ⟨r, hr, hspec⟩
      · rcases List.mem_append.mp hmem with h1 | h2
        · exact Or.inl h1
        · simp only [List.mem_singleton] at h2
          subst h2
          refine Or.inr ⟨.mk nm spec rawSpec
            (some (some fromName, fromVersion, some (d1 :: ds1))), ?_, ?_⟩
          · simp [allRecords]
          · simp only [NpmExplainDependent.rawSpec_mk, NpmExplainDependent.spec_mk]
            exact mkSegment_rawSpec fromName fromVersion rawSpec spec
      · refine Or.inr ⟨r, ?_, hspec⟩
        simp only [allRecords]
        exact List.mem_cons_of_mem _ hr
  | .mk nm spec rawSpec (some (some fromName, fromVersion, some [])), cp, chain, seg => by
    intro hchain hseg
    simp only [buildDependentPathsWithRawSpecChain] at hchain
    by_cases hfn : (fromName == "") = true
    · rw [if_pos hfn] at hchain
      rw [mem_fallback hchain] at hseg
      exact Or.inl hseg
    · rw [if_neg hfn] at hchain
      simp only [List.mem_singleton] at hchain
      subst hchain
      rcases List.mem_append.mp hseg with h1 | h2
      · exact Or.inl h1
      · simp only [List.mem_singleton] at h2
        subst h2
        refine Or.inr ⟨.mk nm spec rawSpec (some (some fromName, fromVersion, some [])), ?_, ?_⟩
        · simp [allRecords, allRecordsList]
        · simp only [NpmExplainDependent.rawSpec_mk, NpmExplainDependent.spec_mk]
          exact mkSegment_rawSpec fromName fromVersion rawSpec spec
  | .mk nm spec rawSpec (some (some fromName, fromVersion, none)), cp, chain, seg => by
    intro hchain hseg
    simp only [buildDependentPathsWithRawSpecChain] at hchain
    by_cases hfn : (fromName == "") = true
    · rw [if_pos hfn] at hchain
      rw [mem_fallback hchain] at hseg
      exact Or.inl hseg
    · rw [if_neg hfn] at hchain
      simp only [List.mem_singleton] at hchain
      subst hchain
      rcases List.mem_append.mp hseg with h1 | h2
      · exact Or.inl h1
      · simp only [List.mem_singleton] at h2
        subst h2
        refine Or.inr ⟨.mk nm spec rawSpec (some (some fromName, fromVersion, none)), ?_, ?_⟩
        · simp [allRecords]
        · simp only [NpmExplainDependent.rawSpec_mk, NpmExplainDependent.spec_mk]
          exact mkSegment_rawSpec fromName fromVersion rawSpec spec
  | .mk nm spec rawSpec (some (none, fv, fd)), cp, chain, seg => by
    intro hchain hseg
    simp only [buildDependentPathsWithRawSpecChain] at hchain
    rw [mem_fallback hchain] at hseg
    exact Or.inl hseg
  | .mk nm spec rawSpec none, cp, chain, seg => by
    intro hchain hseg
    simp only [buildDependentPathsWithRawSpecChain] at hchain
    rw [mem_fallback hchain] at hseg
    exact Or.inl hseg

theorem buildDependentPathsList_spec_source :
    ∀ (ds : List NpmExplainDependent) (cp chain : List Segment) (seg : Segment),
      chain ∈ buildDependentPathsList ds cp → seg ∈ chain →
      seg ∈ cp ∨ ∃ r ∈ allRecordsList ds, seg.rawSpec = preferredSpecifier r.rawSpec r.spec
  | [], cp, chain, seg => by
    intro hchain _
    simp [buildDependentPathsList] at hchain
  | d :: ds, cp, chain, seg => by
    intro hchain hseg
    simp only [buildDependentPathsList] at hchain
    rcases List.mem_append.mp hchain with h1 | h2
    · rcases buildDependentPaths_spec_source d cp chain seg h1 hseg with hl | ⟨r, hr, hs⟩
      · exact Or.inl hl
      · exact Or.inr ⟨r, by
          simp only [allRecordsList]
          exact List.mem_append_left _ hr, hs⟩
    · rcases buildDependentPathsList_spec_source ds cp chain seg h2 hseg with hl | ⟨r, hr, hs⟩
      · exact Or.inl hl
      · exact Or.inr ⟨r, by
          simp only [allRecordsList]
          exact List.mem_append_right _ hr, hs⟩

end

/-- Claim C7: A package record with no dependent records extracts exactly the
single one-segment chain `<name>@<version>` carrying no specifier; and
every extracted segment's specifier comes from some walked record with the
preference order rawSpec first, then spec, else absent. -/
theorem C7_extractor_root_chain_and_spec_preference (pkg : NpmExplainPackage) :
    ((pkg.dependents = none ∨ pkg.dependents = some []) →
      buildAllDependencyPathsWithRawSpecs pkg none =
        [[⟨pkg.name ++ "@" ++ pkg.version, none⟩]]) ∧
    (∀ (d : NpmExplainDependent) (chain : List Segment) (seg : Segment),
      chain ∈ buildDependentPathsWithRawSpecChain d [] → seg ∈ chain →
      ∃ r ∈ allRecords d, seg.rawSpec = preferredSpecifier r.rawSpec r.spec) := by
  constructor
  · intro h
    rcases h with h | h <;> simp [buildAllDependencyPathsWithRawSpecs, h]
  · intro d chain seg hchain hseg
    rcases buildDependentPaths_spec_source d [] chain seg hchain hseg with h | h
    · simp at h
    · exact h

/-- Witness for C7: the `send@0.19.1` record without dependents, and the
single-dependent record `honkit@6.0.3 (^0.17.2)`. -/
theorem C7_extractor_root_chain_and_spec_preference_witness :
    buildAllDependencyPathsWithRawSpecs ⟨"send", "0.19.1", none⟩ none =
      [[⟨"send" ++ "@" ++ "0.19.1", none⟩]] ∧
    ∃ r ∈ allRecords (NpmExplainDependent.mk "send" "^0.17.2" (some "^0.17.2")
        (some (some "honkit", some "6.0.3", none))),
      (⟨"honkit@6.0.3", some "^0.17.2"⟩ : Segment).rawSpec =
        preferredSpecifier r.rawSpec r.spec := by
  obtain ⟨h1, h2⟩ := C7_extractor_root_chain_and_spec_preference ⟨"send", "0.19.1", none⟩
  refine ⟨h1 (Or.inl rfl), ?_⟩
  exact h2 (NpmExplainDependent.mk "send" "^0.17.2" (some "^0.17.2")
      (some (some "honkit", some "6.0.3", none)))
    [⟨"honkit@6.0.3", some "^0.17.2"⟩] ⟨"honkit@6.0.3", some "^0.17.2"⟩
    (by simp [buildDependentPathsWithRawSpecChain, mkSegment, jsOrStr]) (by simp)
